import Mathlib

/-!
Verification development for the WTMLIB core (wall-clock time measurement
library).  The C sources (wtmlib.c, wtmlib.h, wtmlib_config.h) are shallowly
embedded: u64 arithmetic is `Nat` with explicit reduction modulo 2^64 where the
C computation can wrap, i64 values are `Int` obtained by two's-complement
reinterpretation, fallible functions return `Option`/`Except`, and loops become
total recursive functions mirroring the loop bodies.
-/

namespace Wtmlib

/-- Modulus of C `uint64_t` arithmetic: 2^64. -/
def U64_MOD : Nat := 18446744073709551616

/-- UINT64_MAX = 2^64 - 1. -/
def U64_MAX : Nat := 18446744073709551615

/-- INT64_MAX = 2^63 - 1, as a natural number (the C code compares u64 values
against `(uint64_t)INT64_MAX`). -/
def I64_MAX : Nat := 9223372036854775807

/-- INT64_MAX as an integer. -/
def I64_MAX_Z : Int := 9223372036854775807

/-- INT64_MIN as an integer. -/
def I64_MIN_Z : Int := -9223372036854775808

/-- C `uint64_t` multiplication: wraps modulo 2^64. -/
def u64mul (a b : Nat) : Nat := a * b % U64_MOD

/-- C `uint64_t` subtraction: wraps modulo 2^64. -/
def u64sub (a b : Nat) : Nat := (a % U64_MOD + (U64_MOD - b % U64_MOD)) % U64_MOD

/-- Reinterpretation of a u64 bit pattern as a two's-complement `int64_t`. -/
def toI64 (x : Nat) : Int :=
  if x % U64_MOD < 2 ^ 63 then (x % U64_MOD : Int) else (x % U64_MOD : Int) - (U64_MOD : Int)

/-- C `int64_t` subtraction with two's-complement wrap-around.  Signed overflow
is undefined behaviour in C; on the targeted compilers and hardware it wraps,
which is what this function models. -/
def i64sub (a b : Int) : Int := toI64 ((a - b) % (U64_MOD : Int)).toNat

/-- The ABS_DIFF macro of wtmlib.c (absolute difference of two u64 values). -/
def ABS_DIFF (a b : Nat) : Nat := if a > b then a - b else b - a

/-! ## C10 component: wtmlib_CalcTSCToNsecConversionParams (wtmlib.c:2970) -/

/-- The wtmlib_TSCConversionParams_t structure of wtmlib.h.  The C `int` fields
`shift` and `tsc_remainder_length` are modelled as `Nat`; the builder only ever
assigns them non-negative values. -/
structure TSCConversionParams where
  mult : Nat
  shift : Nat
  nsecs_per_tsc_modulus : Nat
  tsc_remainder_length : Nat
  tsc_remainder_bitmask : Nat
  deriving Repr, DecidableEq

/-- Configuration constant WTMLIB_TIME_CONVERSION_MODULUS (wtmlib_config.h). -/
def TIME_CONVERSION_MODULUS : Nat := 10

/-- The loop `while (factor_bound > 1) { factor_bound >>= 1; shift++; }` of
wtmlib_CalcTSCToNsecConversionParams. -/
def factorShiftLoop (factor_bound shift : Nat) : Nat :=
  if 1 < factor_bound then factorShiftLoop (factor_bound >>> 1) (shift + 1) else shift
termination_by factor_bound
decreasing_by
  rename_i h
  simpa [Nat.shiftRight_eq_div_pow] using Nat.div_lt_self (by omega) (by omega)

/-- The loop `while ((tsc_worth_of_modulus >> tsc_remainder_length) > 1)
tsc_remainder_length++;` of wtmlib_CalcTSCToNsecConversionParams. -/
def remainderLengthLoop (tsc_worth_of_modulus len : Nat) : Nat :=
  if 1 < tsc_worth_of_modulus >>> len then remainderLengthLoop tsc_worth_of_modulus (len + 1)
  else len
termination_by tsc_worth_of_modulus - len
decreasing_by
  rename_i h
  rw [Nat.shiftRight_eq_div_pow] at h
  have h2 : 2 * 2 ^ len ≤ tsc_worth_of_modulus :=
    (Nat.le_div_iff_mul_le (Nat.pos_pow_of_pos len (by omega))).mp h
  have h3 : len < 2 ^ len := Nat.lt_two_pow len
  omega

/-- Shallow embedding of wtmlib_CalcTSCToNsecConversionParams (wtmlib.c:2970).
Returns `none` when the function rejects its input with
WTMLIB_RET_GENERIC_ERR.  All u64 arithmetic wraps modulo 2^64.
NOTE: for tsc_per_sec = 0 the C code executes integer divisions by zero (which
trap on x86, so no parameter set is ever produced); Lean division by zero
yields 0 instead, hence theorems about this definition carry the hypothesis
1 ≤ tsc_per_sec. -/
def wtmlib_CalcTSCToNsecConversionParams (tsc_per_sec : Nat) :
    Option TSCConversionParams :=
  if U64_MAX / TIME_CONVERSION_MODULUS < tsc_per_sec then none else
    let tsc_worth_of_modulus := u64mul TIME_CONVERSION_MODULUS tsc_per_sec
    let mult_bound := U64_MAX / tsc_worth_of_modulus
    let factor_bound := u64mul mult_bound tsc_per_sec / 1000000000
    let shift := factorShiftLoop factor_bound 0
    let factor := (1 <<< shift) % U64_MOD
    let mult := u64mul factor 1000000000 / tsc_per_sec
    let tsc_remainder_length := remainderLengthLoop tsc_worth_of_modulus 0
    let tsc_modulus := (1 <<< tsc_remainder_length) % U64_MOD
    let nsecs_per_tsc_modulus := u64mul tsc_modulus mult >>> shift
    let tsc_remainder_bitmask := tsc_modulus - 1
    some ⟨mult, shift, nsecs_per_tsc_modulus, tsc_remainder_length, tsc_remainder_bitmask⟩

/-- First multiplication of the WTMLIB_TSC_TO_NSEC macro (wtmlib.h:91), as an
unbounded product: `(tsc_ticks >> tsc_remainder_length) *
nsecs_per_tsc_modulus`.  It overflows u64 exactly when this value exceeds
U64_MAX. -/
def tscToNsecProdHigh (cp : TSCConversionParams) (tsc_ticks : Nat) : Nat :=
  (tsc_ticks >>> cp.tsc_remainder_length) * cp.nsecs_per_tsc_modulus

/-- Second multiplication of the WTMLIB_TSC_TO_NSEC macro, as an unbounded
product: `(tsc_ticks & tsc_remainder_bitmask) * mult`. -/
def tscToNsecProdLow (cp : TSCConversionParams) (tsc_ticks : Nat) : Nat :=
  (tsc_ticks &&& cp.tsc_remainder_bitmask) * cp.mult

/-- The WTMLIB_TSC_TO_NSEC hot-path conversion with u64 wrap-around
semantics. -/
def WTMLIB_TSC_TO_NSEC (tsc_ticks : Nat) (cp : TSCConversionParams) : Nat :=
  (u64mul (tsc_ticks >>> cp.tsc_remainder_length) cp.nsecs_per_tsc_modulus +
    (u64mul (tsc_ticks &&& cp.tsc_remainder_bitmask) cp.mult >>> cp.shift)) % U64_MOD

/-! Bridging lemmas: the two source loops compute base-2 logarithms. -/

theorem log2_eq_of {n k : Nat} (h1 : 2 ^ k ≤ n) (h2 : n < 2 ^ (k + 1)) :
    Nat.log2 n = k := by
  rw [Nat.log2_eq_log_two]
  exact Nat.log_eq_of_pow_le_of_lt_pow h1 h2

theorem factorShiftLoop_eq_log2 (factor_bound : Nat) :
    ∀ shift, factorShiftLoop factor_bound shift = shift + Nat.log2 factor_bound := by
  induction factor_bound using Nat.strong_induction_on with
  | _ fb ih =>
    intro shift
    by_cases h : 1 < fb
    · have hdiv : fb >>> 1 = fb / 2 := by
        rw [Nat.shiftRight_eq_div_pow]
      rw [factorShiftLoop, if_pos h, hdiv,
        ih (fb / 2) (Nat.div_lt_self (by omega) (by omega))]
      conv_rhs => rw [Nat.log2]
      rw [if_pos (show fb ≥ 2 by omega)]
      omega
    · rw [factorShiftLoop, if_neg h]
      conv_rhs => rw [Nat.log2]
      rw [if_neg (show ¬fb ≥ 2 by omega)]
      omega

theorem remainderLengthLoop_stops (w : Nat) : w >>> Nat.log2 w ≤ 1 := by
  rcases Nat.eq_zero_or_pos w with h | h
  · simp [h]
  · rw [Nat.shiftRight_eq_div_pow]
    have hlt : w < 2 ^ (Nat.log2 w + 1) := by
      rw [Nat.log2_eq_log_two]
      exact Nat.lt_pow_succ_log_self (by omega) w
    have h2 : w < 2 ^ Nat.log2 w * 2 := by
      rw [Nat.pow_succ] at hlt
      omega
    have := Nat.div_lt_of_lt_mul h2
    omega

theorem remainderLengthLoop_advances (w len : Nat) (h : len < Nat.log2 w) :
    1 < w >>> len := by
  rw [Nat.shiftRight_eq_div_pow]
  have hw : w ≠ 0 := by
    intro h0
    rw [h0] at h
    simp [Nat.log2] at h
  have h1 : 2 ^ Nat.log2 w ≤ w := Nat.log2_self_le hw
  have h2 : 2 ^ (len + 1) ≤ 2 ^ Nat.log2 w := Nat.pow_le_pow_right (by omega) (by omega)
  have h3 : 2 ≤ w / 2 ^ len := by
    rw [Nat.le_div_iff_mul_le (Nat.pos_pow_of_pos len (by omega))]
    rw [Nat.pow_succ] at h2
    omega
  omega

theorem remainderLengthLoop_aux (w : Nat) :
    ∀ k len, Nat.log2 w = len + k → remainderLengthLoop w len = Nat.log2 w := by
  intro k
  induction k with
  | zero =>
    intro len h
    have hlen : len = Nat.log2 w := by omega
    subst hlen
    have hstop := remainderLengthLoop_stops w
    rw [remainderLengthLoop, if_neg (by omega)]
  | succ j ih =>
    intro len h
    rw [remainderLengthLoop, if_pos (remainderLengthLoop_advances w len (by omega))]
    exact ih (len + 1) (by omega)

theorem remainderLengthLoop_eq_log2 (w : Nat) :
    remainderLengthLoop w 0 = Nat.log2 w :=
  remainderLengthLoop_aux w (Nat.log2 w) 0 (by omega)

/-! Closed forms for the fields produced by the builder. -/

/-- The local variable tsc_worth_of_modulus of the builder. -/
def cp_worth (t : Nat) : Nat := u64mul TIME_CONVERSION_MODULUS t

/-- The local variable mult_bound of the builder. -/
def cp_multBound (t : Nat) : Nat := U64_MAX / cp_worth t

/-- The local variable factor_bound of the builder. -/
def cp_factorBound (t : Nat) : Nat := u64mul (cp_multBound t) t / 1000000000

/-- The shift computed by the builder (result of the first loop). -/
def cp_shift (t : Nat) : Nat := Nat.log2 (cp_factorBound t)

/-- The local variable factor of the builder. -/
def cp_factor (t : Nat) : Nat := (1 <<< cp_shift t) % U64_MOD

/-- The mult field computed by the builder. -/
def cp_mult (t : Nat) : Nat := u64mul (cp_factor t) 1000000000 / t

/-- The tsc_remainder_length computed by the builder (result of the second
loop). -/
def cp_len (t : Nat) : Nat := Nat.log2 (cp_worth t)

/-- The local variable tsc_modulus of the builder. -/
def cp_modulus (t : Nat) : Nat := (1 <<< cp_len t) % U64_MOD

/-- The nsecs_per_tsc_modulus field computed by the builder. -/
def cp_npm (t : Nat) : Nat := u64mul (cp_modulus t) (cp_mult t) >>> cp_shift t

/-- The tsc_remainder_bitmask field computed by the builder. -/
def cp_mask (t : Nat) : Nat := cp_modulus t - 1

theorem calcTSCToNsecConversionParams_eq (t : Nat)
    (h : t ≤ U64_MAX / TIME_CONVERSION_MODULUS) :
    wtmlib_CalcTSCToNsecConversionParams t =
      some ⟨cp_mult t, cp_shift t, cp_npm t, cp_len t, cp_mask t⟩ := by
  rw [wtmlib_CalcTSCToNsecConversionParams, if_neg (by omega)]
  simp only [factorShiftLoop_eq_log2, remainderLengthLoop_eq_log2, Nat.zero_add]
  rfl

/-! Arithmetic facts about the builder on accepted inputs (1 ≤ t and
t ≤ UINT64_MAX / 10 = 1844674407370955161). -/

theorem cp_worth_val (t : Nat) (h2 : t ≤ 1844674407370955161) :
    cp_worth t = 10 * t := by
  simp only [cp_worth, u64mul, TIME_CONVERSION_MODULUS]
  refine Nat.mod_eq_of_lt ?_
  simp only [U64_MOD]
  omega

theorem cp_mb_mul_le (t : Nat) (h2 : t ≤ 1844674407370955161) :
    cp_multBound t * t * 10 ≤ U64_MAX := by
  rw [cp_multBound, cp_worth_val t h2]
  have h3 := Nat.div_mul_le_self U64_MAX (10 * t)
  calc U64_MAX / (10 * t) * t * 10 = U64_MAX / (10 * t) * (10 * t) := by ring
  _ ≤ U64_MAX := h3

theorem cp_mbt_le (t : Nat) (h2 : t ≤ 1844674407370955161) :
    cp_multBound t * t ≤ 1844674407370955161 := by
  have h3 := cp_mb_mul_le t h2
  simp only [U64_MAX] at h3
  omega

theorem cp_fb_val (t : Nat) (h2 : t ≤ 1844674407370955161) :
    cp_factorBound t = cp_multBound t * t / 1000000000 := by
  have h3 := cp_mbt_le t h2
  simp only [cp_factorBound, u64mul]
  rw [Nat.mod_eq_of_lt]
  simp only [U64_MOD]
  omega

theorem cp_mb_pos (t : Nat) (h1 : 1 ≤ t) (h2 : t ≤ 1844674407370955161) :
    1 ≤ cp_multBound t := by
  rw [cp_multBound, cp_worth_val t h2]
  rw [Nat.one_le_div_iff (by omega)]
  simp only [U64_MAX]
  omega

theorem cp_fb_pos (t : Nat) (h9 : 1000000000 ≤ t) (h2 : t ≤ 1844674407370955161) :
    1 ≤ cp_factorBound t := by
  have h1 : 1 ≤ t := by omega
  rw [cp_fb_val t h2]
  have hmb := cp_mb_pos t h1 h2
  have hm : cp_multBound t * 1000000000 ≤ cp_multBound t * t :=
    Nat.mul_le_mul_left _ h9
  have hd : cp_multBound t ≤ cp_multBound t * t / 1000000000 := by
    rw [Nat.le_div_iff_mul_le (by omega)]
    omega
  omega

theorem cp_fb_le (t : Nat) (h2 : t ≤ 1844674407370955161) :
    cp_factorBound t ≤ 1844674407370955161 := by
  rw [cp_fb_val t h2]
  have ha := cp_mbt_le t h2
  have hb := Nat.div_le_self (cp_multBound t * t) 1000000000
  omega

theorem cp_factor_val (t : Nat) (h9 : 1000000000 ≤ t) (h2 : t ≤ 1844674407370955161) :
    cp_factor t = 2 ^ cp_shift t ∧ 2 ^ cp_shift t ≤ cp_factorBound t := by
  have hpos := cp_fb_pos t h9 h2
  have hle : 2 ^ cp_shift t ≤ cp_factorBound t := Nat.log2_self_le (by omega)
  refine ⟨?_, hle⟩
  simp only [cp_factor, Nat.shiftLeft_eq, one_mul]
  refine Nat.mod_eq_of_lt ?_
  have := cp_fb_le t h2
  simp only [U64_MOD]
  omega

theorem cp_factor_1e9_le (t : Nat) (h9 : 1000000000 ≤ t)
    (h2 : t ≤ 1844674407370955161) :
    cp_factor t * 1000000000 ≤ cp_multBound t * t := by
  obtain ⟨hf, hle⟩ := cp_factor_val t h9 h2
  rw [hf]
  calc 2 ^ cp_shift t * 1000000000 ≤ cp_factorBound t * 1000000000 :=
        Nat.mul_le_mul_right _ hle
  _ ≤ cp_multBound t * t := by
        rw [cp_fb_val t h2]
        exact Nat.div_mul_le_self _ _

theorem cp_mult_val (t : Nat) (h9 : 1000000000 ≤ t) (h2 : t ≤ 1844674407370955161) :
    cp_mult t = cp_factor t * 1000000000 / t := by
  simp only [cp_mult, u64mul]
  rw [Nat.mod_eq_of_lt]
  have ha := cp_factor_1e9_le t h9 h2
  have hb := cp_mbt_le t h2
  simp only [U64_MOD]
  omega

theorem cp_mult_le_factor (t : Nat) (h9 : 1000000000 ≤ t)
    (h2 : t ≤ 1844674407370955161) :
    cp_mult t ≤ cp_factor t := by
  rw [cp_mult_val t h9 h2]
  have h1 : 0 < t := by omega
  calc cp_factor t * 1000000000 / t ≤ cp_factor t * t / t :=
        Nat.div_le_div_right (Nat.mul_le_mul_left _ h9)
  _ = cp_factor t := Nat.mul_div_cancel _ h1

theorem cp_mult_le_mb (t : Nat) (h9 : 1000000000 ≤ t)
    (h2 : t ≤ 1844674407370955161) :
    cp_mult t ≤ cp_multBound t := by
  rw [cp_mult_val t h9 h2]
  have h1 : 0 < t := by omega
  calc cp_factor t * 1000000000 / t ≤ cp_multBound t * t / t :=
        Nat.div_le_div_right (cp_factor_1e9_le t h9 h2)
  _ = cp_multBound t := Nat.mul_div_cancel _ h1

theorem cp_modulus_val (t : Nat) (h1 : 1 ≤ t) (h2 : t ≤ 1844674407370955161) :
    cp_modulus t = 2 ^ cp_len t ∧ 2 ^ cp_len t ≤ 10 * t := by
  have hw := cp_worth_val t h2
  have hne : cp_worth t ≠ 0 := by omega
  have hle : 2 ^ cp_len t ≤ cp_worth t := Nat.log2_self_le hne
  constructor
  · simp only [cp_modulus, Nat.shiftLeft_eq, one_mul]
    refine Nat.mod_eq_of_lt ?_
    simp only [U64_MOD]
    omega
  · omega

theorem cp_mod_mult_le (t : Nat) (h9 : 1000000000 ≤ t)
    (h2 : t ≤ 1844674407370955161) :
    cp_modulus t * cp_mult t ≤ U64_MAX := by
  have h1 : 1 ≤ t := by omega
  obtain ⟨hmv, hmle⟩ := cp_modulus_val t h1 h2
  have hm := cp_mult_le_mb t h9 h2
  have ha : cp_modulus t * cp_mult t ≤ 10 * t * cp_multBound t :=
    Nat.mul_le_mul (by omega) hm
  have h3 : 10 * t * cp_multBound t ≤ U64_MAX := by
    rw [cp_multBound, cp_worth_val t h2, mul_comm]
    exact Nat.div_mul_le_self _ _
  omega

theorem cp_npm_val (t : Nat) (h9 : 1000000000 ≤ t) (h2 : t ≤ 1844674407370955161) :
    cp_npm t = cp_modulus t * cp_mult t / 2 ^ cp_shift t := by
  simp only [cp_npm, u64mul, Nat.shiftRight_eq_div_pow]
  rw [Nat.mod_eq_of_lt]
  have := cp_mod_mult_le t h9 h2
  simp only [U64_MOD, U64_MAX] at *
  omega

theorem cp_npm_le (t : Nat) (h9 : 1000000000 ≤ t) (h2 : t ≤ 1844674407370955161) :
    cp_npm t ≤ cp_modulus t := by
  rw [cp_npm_val t h9 h2]
  have hf := cp_mult_le_factor t h9 h2
  obtain ⟨hfv, _⟩ := cp_factor_val t h9 h2
  calc cp_modulus t * cp_mult t / 2 ^ cp_shift t
      ≤ cp_modulus t * 2 ^ cp_shift t / 2 ^ cp_shift t := by
        refine Nat.div_le_div_right (Nat.mul_le_mul_left _ ?_)
        rw [← hfv]
        exact hf
  _ = cp_modulus t := Nat.mul_div_cancel _ (Nat.pos_pow_of_pos _ (by omega))

/-- C1 (amended): for every ticks-per-second value accepted by
wtmlib_CalcTSCToNsecConversionParams that is at least 10^9 (a TSC rate of at
least 1 GHz), neither multiplication of the WTMLIB_TSC_TO_NSEC hot path —
(tsc_ticks >> tsc_remainder_length) * nsecs_per_tsc_modulus, nor
((tsc_ticks & tsc_remainder_bitmask) * mult) — overflows u64, for any
tsc_ticks representable in u64.  The original claim, which has no lower bound
on the rate, is refuted by C1_overflow_counterexample. -/
theorem C1_tsc_to_nsec_no_overflow (t : Nat) (cp : TSCConversionParams)
    (h9 : 1000000000 ≤ t)
    (hcp : wtmlib_CalcTSCToNsecConversionParams t = some cp) :
    ∀ tsc_ticks, tsc_ticks ≤ U64_MAX →
      tscToNsecProdHigh cp tsc_ticks ≤ U64_MAX ∧
      tscToNsecProdLow cp tsc_ticks ≤ U64_MAX := by
  have hdiv : U64_MAX / TIME_CONVERSION_MODULUS = 1844674407370955161 := by decide
  have h2 : t ≤ 1844674407370955161 := by
    by_contra hgt
    rw [wtmlib_CalcTSCToNsecConversionParams, if_pos (by omega)] at hcp
    exact Option.noConfusion hcp
  rw [calcTSCToNsecConversionParams_eq t (by omega)] at hcp
  have hcpe := Option.some.inj hcp
  subst hcpe
  intro tsc hts
  have h1 : 1 ≤ t := by omega
  obtain ⟨hmodv, hmodle⟩ := cp_modulus_val t h1 h2
  constructor
  · show tsc >>> cp_len t * cp_npm t ≤ U64_MAX
    have hnpm : cp_npm t ≤ 2 ^ cp_len t := by
      have := cp_npm_le t h9 h2
      omega
    rw [Nat.shiftRight_eq_div_pow]
    calc tsc / 2 ^ cp_len t * cp_npm t
        ≤ U64_MAX / 2 ^ cp_len t * 2 ^ cp_len t :=
          Nat.mul_le_mul (Nat.div_le_div_right hts) hnpm
    _ ≤ U64_MAX := Nat.div_mul_le_self _ _
  · show (tsc &&& cp_mask t) * cp_mult t ≤ U64_MAX
    have hand : tsc &&& cp_mask t ≤ 10 * t - 1 := by
      have ha : tsc &&& cp_mask t ≤ cp_mask t := Nat.and_le_right
      have hb : cp_mask t = cp_modulus t - 1 := rfl
      omega
    have hmult := cp_mult_le_mb t h9 h2
    have h10 : 10 * t * cp_multBound t ≤ U64_MAX := by
      rw [cp_multBound, cp_worth_val t h2, mul_comm]
      exact Nat.div_mul_le_self _ _
    have hsub : (10 * t - 1) * cp_multBound t ≤ U64_MAX := by
      rw [Nat.sub_mul]
      omega
    calc (tsc &&& cp_mask t) * cp_mult t
        ≤ (10 * t - 1) * cp_multBound t := Nat.mul_le_mul hand hmult
    _ ≤ U64_MAX := hsub

/-- Witness for C1_tsc_to_nsec_no_overflow: a 3 GHz rate is accepted, and at
tsc_ticks = UINT64_MAX both hot-path multiplications stay within u64. -/
theorem C1_tsc_to_nsec_no_overflow_witness :
    tscToNsecProdHigh ⟨357913941, 30, 5726623056, 34, 17179869183⟩ U64_MAX ≤ U64_MAX ∧
    tscToNsecProdLow ⟨357913941, 30, 5726623056, 34, 17179869183⟩ U64_MAX ≤ U64_MAX := by
  have hcp : wtmlib_CalcTSCToNsecConversionParams 3000000000 =
      some ⟨357913941, 30, 5726623056, 34, 17179869183⟩ := by
    rw [calcTSCToNsecConversionParams_eq 3000000000 (by decide)]
    have e1 : cp_factorBound 3000000000 = 1844674407 := by decide
    have e2 : cp_shift 3000000000 = 30 := by
      rw [cp_shift, e1]
      exact log2_eq_of (by decide) (by decide)
    have e3 : cp_worth 3000000000 = 30000000000 := by decide
    have e4 : cp_len 3000000000 = 34 := by
      rw [cp_len, e3]
      exact log2_eq_of (by decide) (by decide)
    have e5 : cp_factor 3000000000 = 1073741824 := by
      rw [cp_factor, e2]
      decide
    have e6 : cp_mult 3000000000 = 357913941 := by
      rw [cp_mult, e5]
      decide
    have e7 : cp_modulus 3000000000 = 17179869184 := by
      rw [cp_modulus, e4]
      decide
    have e8 : cp_npm 3000000000 = 5726623056 := by
      rw [cp_npm, e7, e6, e2]
      decide
    have e9 : cp_mask 3000000000 = 17179869183 := by
      rw [cp_mask, e7]
    rw [e2, e4, e6, e8, e9]
  exact C1_tsc_to_nsec_no_overflow 3000000000 _ (by decide) hcp U64_MAX (le_refl _)

/-- C1 counterexample: tsc_per_sec = 1 passes the acceptance check of
wtmlib_CalcTSCToNsecConversionParams, and with the parameters it produces the
first multiplication of WTMLIB_TSC_TO_NSEC already exceeds UINT64_MAX at
tsc_ticks = UINT64_MAX — so the claim that neither multiplication can
overflow u64 for any accepted rate and any u64 input is false. -/
theorem C1_overflow_counterexample :
    wtmlib_CalcTSCToNsecConversionParams 1 =
      some ⟨1073741824000000000, 30, 8000000000, 3, 7⟩ ∧
    U64_MAX < tscToNsecProdHigh ⟨1073741824000000000, 30, 8000000000, 3, 7⟩ U64_MAX := by
  constructor
  · rw [calcTSCToNsecConversionParams_eq 1 (by decide)]
    have e1 : cp_factorBound 1 = 1844674407 := by decide
    have e2 : cp_shift 1 = 30 := by
      rw [cp_shift, e1]
      exact log2_eq_of (by decide) (by decide)
    have e3 : cp_worth 1 = 10 := by decide
    have e4 : cp_len 1 = 3 := by
      rw [cp_len, e3]
      exact log2_eq_of (by decide) (by decide)
    have e5 : cp_factor 1 = 1073741824 := by
      rw [cp_factor, e2]
      decide
    have e6 : cp_mult 1 = 1073741824000000000 := by
      rw [cp_mult, e5]
      decide
    have e7 : cp_modulus 1 = 8 := by
      rw [cp_modulus, e4]
      decide
    have e8 : cp_npm 1 = 8000000000 := by
      rw [cp_npm, e7, e6, e2]
      decide
    have e9 : cp_mask 1 = 7 := by
      rw [cp_mask, e7]
    rw [e2, e4, e6, e8, e9]
  · decide

/-! ## C5 component (probe-thread supervisor): the thread-cancel loop of
wtmlib_CollectCASOrderedTSCProbes (wtmlib.c:1698-1708) -/

/-- Shallow embedding of the cancel loop
`for (int i = 0; i < num_started; num_started++) pthread_cancel(thread_descs[i]);`
executed after creation of a probe thread fails (wtmlib.c:1704).  The state is
the loop variable i, the (mutated) bound num_started, and the list of thread
indexes cancelled so far.  A fuel parameter bounds the number of iterations
observed: the function returns some trace when the loop exits within the given
fuel and none when it is still running.  Note that the source increments
num_started in the loop-increment position instead of i. -/
def cancelLoop (fuel : Nat) (i num_started : Nat) (cancelled : List Nat) :
    Option (List Nat) :=
  match fuel with
  | 0 => none
  | fuel + 1 =>
    if i < num_started then cancelLoop fuel i (num_started + 1) (cancelled ++ [i])
    else some cancelled

/-- Companion of cancelLoop that reports the cancellations performed so far
when the fuel runs out. -/
def cancelLoopTrace (fuel : Nat) (i num_started : Nat) (cancelled : List Nat) :
    List Nat :=
  match fuel with
  | 0 => cancelled
  | fuel + 1 =>
    if i < num_started then cancelLoopTrace fuel i (num_started + 1) (cancelled ++ [i])
    else cancelled

theorem cancelLoop_none (fuel : Nat) :
    ∀ n acc, cancelLoop fuel 0 (n + 1) acc = none := by
  induction fuel with
  | zero => intro n acc; rfl
  | succ f ih =>
    intro n acc
    rw [cancelLoop, if_pos (by omega)]
    exact ih (n + 1) (acc ++ [0])

theorem cancelLoopTrace_replicate (fuel : Nat) :
    ∀ n acc, cancelLoopTrace fuel 0 (n + 1) acc = acc ++ List.replicate fuel 0 := by
  induction fuel with
  | zero => intro n acc; simp [cancelLoopTrace]
  | succ f ih =>
    intro n acc
    rw [cancelLoopTrace, if_pos (by omega), ih (n + 1) (acc ++ [0])]
    simp [List.replicate_succ]

/-- C3 (code bug): when creation of probe thread 1 fails with one thread
already launched (num_started = 1), the cancel loop of
wtmlib_CollectCASOrderedTSCProbes does not terminate within any number of
iterations, and the cancellations it performs are fuel copies of index 0 — it
repeatedly cancels thread 0 while incrementing num_started instead of i.  It
therefore never cancels exactly the already-launched threads 0..i-1 once each,
and never proceeds to the wait/join phase.  (In C the loop runs until the
signed int num_started overflows, which is undefined behaviour.) -/
theorem C3_cancel_loop_diverges :
    ∀ fuel : Nat, cancelLoop fuel 0 1 [] = none ∧
      cancelLoopTrace fuel 0 1 [] = List.replicate fuel 0 := by
  intro fuel
  refine ⟨cancelLoop_none fuel 0 [], ?_⟩
  have := cancelLoopTrace_replicate fuel 0 []
  simpa using this

/-! ## C7 component: the per-peer loop of wtmlib_CalcTSCEnclosingRangeCOP
(wtmlib.c:2068-2166) -/

/-- Result alphabet of the delta-range analyzers (0, WTMLIB_RET_TSC_INCONSISTENCY
or WTMLIB_RET_POOR_STAT together with the output interval on success). -/
inductive DeltaRangeResult where
  | ok (delta_min delta_max : Int)
  | tscInconsistency
  | poorStat
  deriving Repr, DecidableEq

/-- The peer CPUs that the per-CPU loop of wtmlib_CalcTSCEnclosingRangeCOP
(and likewise wtmlib_CalcTSCEnclosingRangeCPUSW) processes: every CPU of the
affinity constraint except the base CPU (wtmlib.c:2106-2111). -/
def peersOf (cpu_constraint : List Nat) (base_cpu : Nat) : List Nat :=
  cpu_constraint.filter (fun cpu_id => cpu_id ≠ base_cpu)

/-- The per-peer loop of wtmlib_CalcTSCEnclosingRangeCOP.  For each peer CPU
one invocation of wtmlib_CollectCASOrderedTSCProbes happens (counted in the
second component) followed by the delta-range analysis, abstracted by deltaOf
because it depends on hardware TSC readings.  l_bound and u_bound are updated
with min/max exactly as in the source (wtmlib.c:2147-2149); an analyzer error
aborts the loop. -/
def enclosingRangeLoop (peers : List Nat) (deltaOf : Nat → DeltaRangeResult)
    (l_bound u_bound : Int) : Option (Int × Int) × Nat :=
  match peers with
  | [] => (some (l_bound, u_bound), 0)
  | cpu :: rest =>
    match deltaOf cpu with
    | .ok dmin dmax =>
      let res := enclosingRangeLoop rest deltaOf
        (if l_bound > dmin then dmin else l_bound)
        (if u_bound < dmax then dmax else u_bound)
      (res.1, res.2 + 1)
    | _ => (none, 1)

/-- Shallow embedding of wtmlib_CalcTSCEnclosingRangeCOP (wtmlib.c:2068).
Initial bounds are l_bound = INT64_MAX and u_bound = INT64_MIN
(wtmlib.c:2083); on success the function stores u_bound - l_bound computed in
int64 arithmetic (wtmlib.c:2160), which wraps on signed overflow.  The second
component counts invocations of wtmlib_CollectCASOrderedTSCProbes, i.e. how
many times probe threads are created. -/
def wtmlib_CalcTSCEnclosingRangeCOP (cpu_constraint : List Nat) (base_cpu : Nat)
    (deltaOf : Nat → DeltaRangeResult) : Option Int × Nat :=
  let r := enclosingRangeLoop (peersOf cpu_constraint base_cpu) deltaOf I64_MAX_Z I64_MIN_Z
  match r.1 with
  | some (l, u) => (some (i64sub u l), r.2)
  | none => (none, r.2)

/-! ## C8 component (carousel path): the monotonicity analysis of
wtmlib_EvalTSCMonotonicityCPUSW (wtmlib.c:1015-1054) -/

/-- Shallow embedding of wtmlib_CheckCarouselValsConsistency (wtmlib.c:463):
true when the samples pass the gate, i.e. no CPU has equal first and last
collected TSC value.  CPU 0 owns num_rounds+1 samples, every other CPU
num_rounds samples (hence the num_rounds - 1 index, wtmlib.c:502). -/
def checkCarouselValsConsistency (tsc_vals : List (List Nat))
    (num_avail_cpus num_rounds : Nat) : Bool :=
  ((tsc_vals.getD 0 []).getD 0 0 != (tsc_vals.getD 0 []).getD num_rounds 0) &&
  (List.range (num_avail_cpus - 1)).all (fun j =>
    (tsc_vals.getD (j + 1) []).getD 0 0 != (tsc_vals.getD (j + 1) []).getD (num_rounds - 1) 0)

/-- Inner loop (over tsc_series) of the monotonicity scan of
wtmlib_EvalTSCMonotonicityCPUSW for one carousel round.  The state is
(broken, prev); once a decrease breaks the inner loop the remaining series of
the round are skipped (broken stays set and prev is left untouched, matching
the C break). -/
def monoCPUSWRound (tsc_vals : List (List Nat)) (num_cpus_avail round : Nat)
    (prev : Nat) : Bool × Nat :=
  (List.range num_cpus_avail).foldl
    (fun st tsc_series =>
      if st.1 then st
      else
        let v := (tsc_vals.getD tsc_series []).getD round 0
        if v < st.2 then (true, st.2) else (false, v))
    (false, prev)

/-- Outer loop (over rounds) of the monotonicity scan of
wtmlib_EvalTSCMonotonicityCPUSW (wtmlib.c:1024-1041): is_monotonic turns false
as soon as some round reports a decrease, and the scan of later rounds
continues exactly as in the source. -/
def monoCPUSWScan (tsc_vals : List (List Nat)) (num_cpus_avail num_rounds : Nat) :
    Bool × Nat :=
  (List.range num_rounds).foldl
    (fun st round =>
      let r := monoCPUSWRound tsc_vals num_cpus_avail round st.2
      (st.1 && !r.1, r.2))
    (true, (tsc_vals.getD 0 []).getD 0 0)

/-- Shallow embedding of the analysis part of wtmlib_EvalTSCMonotonicityCPUSW
(wtmlib.c:1015-1054), as a function of the collected carousel samples.
Returns none when the consistency gate fires (WTMLIB_RET_TSC_INCONSISTENCY),
otherwise the is_monotonic flag, including the trailing-sample check of
wtmlib.c:1046-1054. -/
def evalTSCMonotonicityCPUSW (tsc_vals : List (List Nat))
    (num_cpus_avail num_rounds : Nat) : Option Bool :=
  if checkCarouselValsConsistency tsc_vals num_cpus_avail num_rounds then
    let r := monoCPUSWScan tsc_vals num_cpus_avail num_rounds
    if r.1 && decide ((tsc_vals.getD 0 []).getD num_rounds 0 < r.2) then some false
    else some r.1
  else none

/-- C2 (amended): when exactly one CPU c is allowed by the affinity mask (the
base CPU is then c itself), the pairwise-offset stage iterates over zero peer
CPUs — wtmlib_CollectCASOrderedTSCProbes is never invoked, so no probe
threads are created — and the enclosing-range size reported is 1, the
two's-complement value of INT64_MIN - INT64_MAX computed from the untouched
initial bounds (a signed overflow, undefined behaviour in C), not 0.
Monotonicity is not short-circuited to true either: the evaluator still
analyses the collected samples and reports false for a decreasing sample
sequence such as [5, 3] on the single allowed CPU. -/
theorem C2_single_cpu_behavior :
    (∀ (c : Nat) (deltaOf : Nat → DeltaRangeResult),
      peersOf [c] c = [] ∧
      wtmlib_CalcTSCEnclosingRangeCOP [c] c deltaOf = (some 1, 0)) ∧
    evalTSCMonotonicityCPUSW [[5, 3]] 1 1 = some false := by
  constructor
  · intro c deltaOf
    have hp : peersOf [c] c = [] := by simp [peersOf]
    refine ⟨hp, ?_⟩
    rw [wtmlib_CalcTSCEnclosingRangeCOP, hp]
    rfl
  · decide

/-- C2 counterexample: with a single allowed CPU (here CPU 0), the
maximum-shift estimate returned by the enclosing-range computation is 1, not
0 as the claim states. -/
theorem C2_single_cpu_counterexample :
    wtmlib_CalcTSCEnclosingRangeCOP [0] 0 (fun _ => DeltaRangeResult.tscInconsistency) =
      (some 1, 0) ∧
    ¬ wtmlib_CalcTSCEnclosingRangeCOP [0] 0 (fun _ => DeltaRangeResult.tscInconsistency) =
      (some 0, 0) := by
  constructor
  · decide
  · decide

/-! ## C6 component (carousel variant): wtmlib_CalcTSCDeltaRangeCPUSW
(wtmlib.c:533-625) -/

/-- One round of the loop of wtmlib_CalcTSCDeltaRangeCPUSW (wtmlib.c:552-614),
acting on the running interval (d_min, d_max).  All three failing checks
return WTMLIB_RET_TSC_INCONSISTENCY, modelled as Except.error.  bound_min and
bound_max are computed by u64 subtraction reinterpreted as int64, exactly as
in the source. -/
def deltaRoundCPUSW (tsc_base tsc_other : List Nat) (i : Nat) (d : Int × Int) :
    Except Unit (Int × Int) :=
  if tsc_base.getD (i + 1) 0 < tsc_base.getD i 0 ∨
      (0 < i ∧ tsc_other.getD i 0 < tsc_other.getD (i - 1) 0) then .error ()
  else if I64_MAX < ABS_DIFF (tsc_other.getD i 0) (tsc_base.getD i 0) ∨
      I64_MAX < ABS_DIFF (tsc_other.getD i 0) (tsc_base.getD (i + 1) 0) then .error ()
  else
    let bound_min := toI64 (u64sub (tsc_other.getD i 0) (tsc_base.getD (i + 1) 0))
    let bound_max := toI64 (u64sub (tsc_other.getD i 0) (tsc_base.getD i 0))
    if bound_min > d.2 ∨ bound_max < d.1 then .error ()
    else .ok ((if bound_min > d.1 then bound_min else d.1),
              (if bound_max < d.2 then bound_max else d.2))

/-- The round loop of wtmlib_CalcTSCDeltaRangeCPUSW, with the initial interval
(INT64_MIN, INT64_MAX) of wtmlib.c:542.  An error aborts the loop; in the fold
it is sticky, which is observably the same. -/
def deltaLoopCPUSW (tsc_base tsc_other : List Nat) (num_rounds : Nat) :
    Except Unit (Int × Int) :=
  (List.range num_rounds).foldl
    (fun st i => match st with
      | .error e => .error e
      | .ok d => deltaRoundCPUSW tsc_base tsc_other i d)
    (.ok (I64_MIN_Z, I64_MAX_Z))

/-- Shallow embedding of wtmlib_CalcTSCDeltaRangeCPUSW (wtmlib.c:533): the
consistency gate of wtmlib_CheckCarouselValsConsistency applied to the two
sample arrays first, then the round loop. -/
def wtmlib_CalcTSCDeltaRangeCPUSW (tsc_base tsc_other : List Nat)
    (num_rounds : Nat) : Except Unit (Int × Int) :=
  if checkCarouselValsConsistency [tsc_base, tsc_other] 2 num_rounds then
    deltaLoopCPUSW tsc_base tsc_other num_rounds
  else .error ()

/-- Lower bound of round i stated by the specification: tsc_other[i] -
tsc_base[i+1], as an exact integer. -/
def specRoundLo (tsc_base tsc_other : List Nat) (i : Nat) : Int :=
  (tsc_other.getD i 0 : Int) - (tsc_base.getD (i + 1) 0 : Int)

/-- Upper bound of round i stated by the specification: tsc_other[i] -
tsc_base[i]. -/
def specRoundHi (tsc_base tsc_other : List Nat) (i : Nat) : Int :=
  (tsc_other.getD i 0 : Int) - (tsc_base.getD i 0 : Int)

/-- The tsc-inconsistency condition stated by the claim for the carousel
delta-range analyzer: a within-CPU decrease, a cross-CPU difference exceeding
INT64_MAX, or an empty intersection of the per-round delta intervals. -/
def specDeltaBad (tsc_base tsc_other : List Nat) (num_rounds : Nat) : Prop :=
  (∃ i < num_rounds, tsc_base.getD (i + 1) 0 < tsc_base.getD i 0) ∨
  (∃ i, 0 < i ∧ i < num_rounds ∧ tsc_other.getD i 0 < tsc_other.getD (i - 1) 0) ∨
  (∃ i < num_rounds,
    I64_MAX < ABS_DIFF (tsc_other.getD i 0) (tsc_base.getD i 0) ∨
    I64_MAX < ABS_DIFF (tsc_other.getD i 0) (tsc_base.getD (i + 1) 0)) ∨
  (¬ ∃ z : Int, ∀ i < num_rounds,
    specRoundLo tsc_base tsc_other i ≤ z ∧ z ≤ specRoundHi tsc_base tsc_other i)

theorem getD_lt_mod (l : List Nat) (h : ∀ x ∈ l, x < U64_MOD) (i : Nat) :
    l.getD i 0 < U64_MOD := by
  rcases Nat.lt_or_ge i l.length with hi | hi
  · rw [List.getD_eq_getElem l 0 hi]
    exact h _ (List.getElem_mem hi)
  · rw [List.getD_eq_default l 0 (by omega)]
    simp [U64_MOD]

theorem toI64_u64sub (a b : Nat) (ha : a < U64_MOD) (hb : b < U64_MOD)
    (hd : ABS_DIFF a b ≤ I64_MAX) : toI64 (u64sub a b) = (a : Int) - (b : Int) := by
  have hd2 : a - b ≤ 9223372036854775807 ∧ b - a ≤ 9223372036854775807 := by
    simp only [ABS_DIFF, I64_MAX] at hd
    split at hd <;> omega
  simp only [U64_MOD] at ha hb
  simp only [u64sub, toI64, U64_MOD]
  split <;> omega

theorem specRound_abs (a c : Nat) (h : ABS_DIFF a c ≤ I64_MAX) :
    -(I64_MAX : Int) ≤ (a : Int) - c ∧ (a : Int) - c ≤ (I64_MAX : Int) := by
  simp only [ABS_DIFF, I64_MAX] at *
  split at h <;> constructor <;> omega

theorem specDeltaBad_mono (b o : List Nat) (R : Nat) :
    specDeltaBad b o R → specDeltaBad b o (R + 1) := by
  intro h
  rcases h with ⟨i, hi, h⟩ | ⟨i, hi0, hi, h⟩ | ⟨i, hi, h⟩ | h
  · exact Or.inl ⟨i, by omega, h⟩
  · exact Or.inr (Or.inl ⟨i, hi0, by omega, h⟩)
  · exact Or.inr (Or.inr (Or.inl ⟨i, by omega, h⟩))
  · refine Or.inr (Or.inr (Or.inr ?_))
    intro ⟨z, hz⟩
    exact h ⟨z, fun i hi => hz i (by omega)⟩

theorem deltaLoopCPUSW_succ (b o : List Nat) (R : Nat) :
    deltaLoopCPUSW b o (R + 1) =
      match deltaLoopCPUSW b o R with
      | .error e => .error e
      | .ok d => deltaRoundCPUSW b o R d := by
  simp only [deltaLoopCPUSW]
  rw [List.range_succ, List.foldl_append]
  rfl

theorem deltaLoopCPUSW_succ_ok (b o : List Nat) (R : Nat) (lo hi : Int)
    (h : deltaLoopCPUSW b o R = .ok (lo, hi)) :
    deltaLoopCPUSW b o (R + 1) = deltaRoundCPUSW b o R (lo, hi) := by
  rw [deltaLoopCPUSW_succ, h]

theorem deltaLoopCPUSW_succ_err (b o : List Nat) (R : Nat)
    (h : deltaLoopCPUSW b o R = .error ()) :
    deltaLoopCPUSW b o (R + 1) = .error () := by
  rw [deltaLoopCPUSW_succ, h]

theorem deltaLoop_invariant (b o : List Nat)
    (hub : ∀ x ∈ b, x < U64_MOD) (huo : ∀ x ∈ o, x < U64_MOD) :
    ∀ R : Nat,
      (∃ lo hi, deltaLoopCPUSW b o R = .ok (lo, hi) ∧
        (∀ i < R,
          ¬(b.getD (i + 1) 0 < b.getD i 0 ∨ (0 < i ∧ o.getD i 0 < o.getD (i - 1) 0)) ∧
          ABS_DIFF (o.getD i 0) (b.getD i 0) ≤ I64_MAX ∧
          ABS_DIFF (o.getD i 0) (b.getD (i + 1) 0) ≤ I64_MAX) ∧
        (∀ z : Int, (lo ≤ z ∧ z ≤ hi) ↔
          (I64_MIN_Z ≤ z ∧ z ≤ I64_MAX_Z ∧
           ∀ i < R, specRoundLo b o i ≤ z ∧ z ≤ specRoundHi b o i)) ∧
        (∃ z : Int, lo ≤ z ∧ z ≤ hi)) ∨
      (deltaLoopCPUSW b o R = .error () ∧ specDeltaBad b o R) := by
  intro R
  induction R with
  | zero =>
    left
    refine ⟨I64_MIN_Z, I64_MAX_Z, rfl, ?_, ?_, ⟨0, by decide⟩⟩
    · intro i hi
      omega
    · intro z
      constructor
      · intro hz
        exact ⟨hz.1, hz.2, fun i hi => absurd hi (by omega)⟩
      · intro hz
        exact ⟨hz.1, hz.2.1⟩
  | succ R ih =>
    rcases ih with ⟨lo, hi, heq, hA1, hA2, hA3⟩ | ⟨heq, hbad⟩
    · rw [deltaLoopCPUSW_succ_ok b o R lo hi heq]
      simp only [deltaRoundCPUSW]
      by_cases h1 : b.getD (R + 1) 0 < b.getD R 0 ∨
          (0 < R ∧ o.getD R 0 < o.getD (R - 1) 0)
      · rw [if_pos h1]
        right
        refine ⟨rfl, ?_⟩
        rcases h1 with h1 | h1
        · exact Or.inl ⟨R, by omega, h1⟩
        · exact Or.inr (Or.inl ⟨R, h1.1, by omega, h1.2⟩)
      · rw [if_neg h1]
        by_cases h2 : I64_MAX < ABS_DIFF (o.getD R 0) (b.getD R 0) ∨
            I64_MAX < ABS_DIFF (o.getD R 0) (b.getD (R + 1) 0)
        · rw [if_pos h2]
          right
          exact ⟨rfl, Or.inr (Or.inr (Or.inl ⟨R, by omega, h2⟩))⟩
        · rw [if_neg h2]
          push_neg at h2
          obtain ⟨h2a, h2b⟩ := h2
          push_neg at h1
          have hboa : o.getD R 0 < U64_MOD := getD_lt_mod o huo R
          have hbb : b.getD R 0 < U64_MOD := getD_lt_mod b hub R
          have hbb1 : b.getD (R + 1) 0 < U64_MOD := getD_lt_mod b hub (R + 1)
          have hBmin : toI64 (u64sub (o.getD R 0) (b.getD (R + 1) 0)) =
              specRoundLo b o R := toI64_u64sub _ _ hboa hbb1 h2b
          have hBmax : toI64 (u64sub (o.getD R 0) (b.getD R 0)) =
              specRoundHi b o R := toI64_u64sub _ _ hboa hbb h2a
          have habsLo : -(I64_MAX : Int) ≤ specRoundLo b o R ∧
              specRoundLo b o R ≤ (I64_MAX : Int) := specRound_abs _ _ h2b
          have habsHi : -(I64_MAX : Int) ≤ specRoundHi b o R ∧
              specRoundHi b o R ≤ (I64_MAX : Int) := specRound_abs _ _ h2a
          have hlohi : specRoundLo b o R ≤ specRoundHi b o R := by
            have hb1 : b.getD R 0 ≤ b.getD (R + 1) 0 := by omega
            simp only [specRoundLo, specRoundHi]
            omega
          rw [hBmin, hBmax]
          by_cases h3 : specRoundLo b o R > hi ∨ specRoundHi b o R < lo
          · rw [if_pos h3]
            right
            refine ⟨rfl, Or.inr (Or.inr (Or.inr ?_))⟩
            rintro ⟨z, hz⟩
            have hzR := hz R (by omega)
            have hzlohi : lo ≤ z ∧ z ≤ hi := by
              refine (hA2 z).mpr ⟨?_, ?_, fun i hi2 => hz i (by omega)⟩
              · have hx := hzR.1
                have hy := habsLo.1
                simp only [I64_MIN_Z, I64_MAX] at *
                omega
              · have hx := hzR.2
                have hy := habsHi.2
                simp only [I64_MAX_Z, I64_MAX] at *
                omega
            rcases h3 with h3 | h3 <;> omega
          · rw [if_neg h3]
            push_neg at h3
            obtain ⟨h3a, h3b⟩ := h3
            left
            refine ⟨_, _, rfl, ?_, ?_, ?_⟩
            · intro i hi2
              rcases Nat.lt_succ_iff_lt_or_eq.mp hi2 with hi3 | hi3
              · exact hA1 i hi3
              · subst hi3
                exact ⟨by omega, h2a, h2b⟩
            · intro z
              constructor
              · intro hz
                obtain ⟨hzl, hzr⟩ := hz
                have hs1 : specRoundLo b o R ≤ z ∧ lo ≤ z := by
                  split at hzl
                  · constructor <;> omega
                  · constructor <;> omega
                have hs2 : z ≤ specRoundHi b o R ∧ z ≤ hi := by
                  split at hzr
                  · constructor <;> omega
                  · constructor <;> omega
                have hmain := (hA2 z).mp ⟨hs1.2, hs2.2⟩
                refine ⟨hmain.1, hmain.2.1, ?_⟩
                intro i hi2
                rcases Nat.lt_succ_iff_lt_or_eq.mp hi2 with hi3 | hi3
                · exact hmain.2.2 i hi3
                · subst hi3
                  exact ⟨hs1.1, hs2.1⟩
              · intro hz
                obtain ⟨hzmin, hzmax, hall⟩ := hz
                have hin : lo ≤ z ∧ z ≤ hi :=
                  (hA2 z).mpr ⟨hzmin, hzmax, fun i hi2 => hall i (by omega)⟩
                have hR2 := hall R (by omega)
                constructor
                · split <;> omega
                · split <;> omega
            · obtain ⟨z0, hz0⟩ := hA3
              rcases le_total (specRoundLo b o R) lo with hc | hc
              · refine ⟨lo, ?_, ?_⟩
                · split <;> omega
                · split <;> omega
              · refine ⟨specRoundLo b o R, ?_, ?_⟩
                · split <;> omega
                · split <;> omega
    · rw [deltaLoopCPUSW_succ_err b o R heq]
      right
      exact ⟨rfl, specDeltaBad_mono b o R hbad⟩

/-- C4: for sample arrays that pass the first-not-equal-last consistency gate
(all values being u64), the carousel delta-range analyzer
wtmlib_CalcTSCDeltaRangeCPUSW returns WTMLIB_RET_TSC_INCONSISTENCY exactly
when a within-CPU decrease occurs, a cross-CPU difference exceeds INT64_MAX,
or the per-round delta intervals have empty intersection (equivalently, some
round's bounds fail to intersect the running range); and on success the
returned interval is precisely the intersection over all rounds i of
[tsc_other[i] - tsc_base[i+1], tsc_other[i] - tsc_base[i]]. -/
theorem C4_delta_range_cpusw (tsc_base tsc_other : List Nat) (num_rounds : Nat)
    (hub : ∀ x ∈ tsc_base, x < U64_MOD) (huo : ∀ x ∈ tsc_other, x < U64_MOD)
    (hgate : checkCarouselValsConsistency [tsc_base, tsc_other] 2 num_rounds = true) :
    (wtmlib_CalcTSCDeltaRangeCPUSW tsc_base tsc_other num_rounds = .error () ↔
      specDeltaBad tsc_base tsc_other num_rounds) ∧
    (∀ lo hi,
      wtmlib_CalcTSCDeltaRangeCPUSW tsc_base tsc_other num_rounds = .ok (lo, hi) →
      ∀ z : Int, (lo ≤ z ∧ z ≤ hi) ↔
        ∀ i < num_rounds, specRoundLo tsc_base tsc_other i ≤ z ∧
          z ≤ specRoundHi tsc_base tsc_other i) := by
  have hR : 1 ≤ num_rounds := by
    by_contra hR
    have h0 : num_rounds = 0 := by omega
    subst h0
    simp [checkCarouselValsConsistency] at hgate
  rw [wtmlib_CalcTSCDeltaRangeCPUSW, if_pos hgate]
  rcases deltaLoop_invariant tsc_base tsc_other hub huo num_rounds with
    ⟨lo, hi, heq, hA1, hA2, hA3⟩ | ⟨heq, hbad⟩
  · rw [heq]
    constructor
    · constructor
      · intro hcontra
        exact Except.noConfusion hcontra
      · intro hbad
        exfalso
        rcases hbad with ⟨i, hi2, h⟩ | ⟨i, h0, hi2, h⟩ | ⟨i, hi2, h⟩ | h
        · exact (hA1 i hi2).1 (Or.inl h)
        · exact (hA1 i hi2).1 (Or.inr ⟨h0, h⟩)
        · rcases h with h | h
          · exact absurd (hA1 i hi2).2.1 (by omega)
          · exact absurd (hA1 i hi2).2.2 (by omega)
        · obtain ⟨z, hz⟩ := hA3
          exact h ⟨z, fun i hi2 => ((hA2 z).mp hz).2.2 i hi2⟩
    · intro lo2 hi2 heq2 z
      injection heq2 with hpair
      injection hpair with he1 he2
      subst he1
      subst he2
      constructor
      · intro hz i hi3
        exact ((hA2 z).mp hz).2.2 i hi3
      · intro hall
        have h0 := hall 0 (by omega)
        have habsLo : -(I64_MAX : Int) ≤ specRoundLo tsc_base tsc_other 0 ∧
            specRoundLo tsc_base tsc_other 0 ≤ (I64_MAX : Int) :=
          specRound_abs _ _ (hA1 0 (by omega)).2.2
        have habsHi : -(I64_MAX : Int) ≤ specRoundHi tsc_base tsc_other 0 ∧
            specRoundHi tsc_base tsc_other 0 ≤ (I64_MAX : Int) :=
          specRound_abs _ _ (hA1 0 (by omega)).2.1
        refine (hA2 z).mpr ⟨?_, ?_, hall⟩
        · have hx := h0.1
          have hy := habsLo.1
          simp only [I64_MIN_Z, I64_MAX] at hx hy ⊢
          omega
        · have hx := h0.2
          have hy := habsHi.2
          simp only [I64_MAX_Z, I64_MAX] at hx hy ⊢
          omega
  · rw [heq]
    refine ⟨⟨fun _ => hbad, fun _ => rfl⟩, ?_⟩
    intro lo hi hcontra
    exact Except.noConfusion hcontra

/-- Witness for C4_delta_range_cpusw: the concrete two-round carousel
tsc_base = [10, 20, 30], tsc_other = [15, 25] passes the gate, and the
analyzer conclusion holds for it. -/
theorem C4_delta_range_cpusw_witness :
    (wtmlib_CalcTSCDeltaRangeCPUSW [10, 20, 30] [15, 25] 2 = .error () ↔
      specDeltaBad [10, 20, 30] [15, 25] 2) ∧
    (∀ lo hi, wtmlib_CalcTSCDeltaRangeCPUSW [10, 20, 30] [15, 25] 2 = .ok (lo, hi) →
      ∀ z : Int, (lo ≤ z ∧ z ≤ hi) ↔
        ∀ i < 2, specRoundLo [10, 20, 30] [15, 25] i ≤ z ∧
          z ≤ specRoundHi [10, 20, 30] [15, 25] i) :=
  C4_delta_range_cpusw [10, 20, 30] [15, 25] 2 (by decide) (by decide) (by decide)

/-! ## C1/C2 components and public operations: process-state capture and
restoration, and the control flow of the three public entry points.  The
environment-dependent sub-steps (syscalls, probe collection, hardware TSC
reads) are abstracted by oracles; the control flow, return codes and output
writes mirror the source. -/

/-- The wtmlib_ProcAndSysState_t structure (wtmlib.c:108): CPU count, the CPU
the calling thread was running on, its affinity mask (modelled as a bitmask)
and the cache line size. -/
structure ProcAndSysState where
  num_cpus : Nat
  initial_cpu : Nat
  initial_cpu_set : Nat
  cline_size : Nat
  deriving Repr, DecidableEq

/-- Successful wtmlib_GetProcAndSystemState (wtmlib.c:787): captures the
current CPU and the current affinity mask of the calling thread. -/
def wtmlib_GetProcAndSystemState (num_cpus cur_cpu cur_mask cline : Nat) :
    ProcAndSysState :=
  ⟨num_cpus, cur_cpu, cur_mask, cline⟩

/-- Failure injection for wtmlib_RestoreInitialProcState: whether CPU_ALLOC
and each of the two pthread_setaffinity_np calls succeed. -/
structure RestoreOracle where
  alloc_ok : Bool
  set_initial_cpu_ok : Bool
  set_initial_mask_ok : Bool
  deriving Repr, DecidableEq

/-- Outcome of wtmlib_RestoreInitialProcState: the return code, the affinity
mask of the thread afterwards (given its mask cur_mask at entry; a failing
pthread_setaffinity_np call does not change the mask), and the ordered trace
of affinity masks the function asked the OS to install. -/
structure RestoreOutcome where
  ret : Nat
  mask : Nat
  trace : List Nat
  deriving Repr, DecidableEq

/-- Shallow embedding of wtmlib_RestoreInitialProcState (wtmlib.c:871-928):
step 1 pins the thread to the captured initial CPU alone (mask
2 ^ initial_cpu, built by CPU_ZERO_S/CPU_SET_S), step 2 installs the captured
initial mask; any failure returns WTMLIB_RET_GENERIC_ERR (modelled as 1). -/
def wtmlib_RestoreInitialProcState (st : ProcAndSysState) (o : RestoreOracle)
    (cur_mask : Nat) : RestoreOutcome :=
  if ¬o.alloc_ok then ⟨1, cur_mask, []⟩
  else if ¬o.set_initial_cpu_ok then ⟨1, cur_mask, [2 ^ st.initial_cpu]⟩
  else if ¬o.set_initial_mask_ok then
    ⟨1, 2 ^ st.initial_cpu, [2 ^ st.initial_cpu, st.initial_cpu_set]⟩
  else ⟨0, st.initial_cpu_set, [2 ^ st.initial_cpu, st.initial_cpu_set]⟩

/-- Oracle for the sub-steps of wtmlib_EvalTSCReliabilityCPUSW: state capture,
enclosing-range computation, monotonicity evaluation, state restoration.  A
failing sub-step returns a non-zero WTMLIB code; the Except error value c
stands for source code c + 1, so failures are non-zero by construction, as in
the source. -/
structure CPUSWOracle where
  state_ok : Bool
  range_res : Except Nat Int
  mono_res : Except Nat Bool
  restore_ok : Bool

/-- Observable outcome of a reliability evaluation: return code, whether and
with what the two result out-pointers were written, and whether the
error-message buffer was written. -/
structure EvalReliabilityOutcome where
  ret : Nat
  range_out : Option Int
  mono_out : Option Bool
  err_out : Bool
  deriving Repr, DecidableEq

/-- Shallow embedding of the control flow of wtmlib_EvalTSCReliabilityCPUSW
(wtmlib.c:1083-1167).  want_range / want_mono / want_err model whether the
caller passed non-null tsc_range_length_ret / is_monotonic_ret / err_msg
pointers; every write in the source is guarded by the pointer being non-null
(WTMLIB_BUFF_MSG and the two `if ( ..._ret )` writes at wtmlib.c:1159-1161). -/
def wtmlib_EvalTSCReliabilityCPUSW (o : CPUSWOracle)
    (want_range want_mono want_err : Bool) : EvalReliabilityOutcome :=
  if ¬o.state_ok then ⟨1, none, none, want_err⟩
  else match o.range_res with
  | .error c => ⟨c + 1, none, none, want_err⟩
  | .ok range =>
    match o.mono_res with
    | .error c => ⟨c + 1, none, none, want_err⟩
    | .ok mono =>
      if ¬o.restore_ok then ⟨1, none, none, want_err⟩
      else ⟨0, if want_range then some range else none,
               if want_mono then some mono else none, false⟩

/-- Oracle for the sub-steps of wtmlib_EvalTSCReliabilityCOP (which does not
restore process state: its probe threads pin themselves). -/
structure COPOracle where
  state_ok : Bool
  range_res : Except Nat Int
  mono_res : Except Nat Bool

/-- Shallow embedding of the control flow of wtmlib_EvalTSCReliabilityCOP
(wtmlib.c:2497-2555). -/
def wtmlib_EvalTSCReliabilityCOP (o : COPOracle)
    (want_range want_mono want_err : Bool) : EvalReliabilityOutcome :=
  if ¬o.state_ok then ⟨1, none, none, want_err⟩
  else match o.range_res with
  | .error c => ⟨c + 1, none, none, want_err⟩
  | .ok range =>
    match o.mono_res with
    | .error c => ⟨c + 1, none, none, want_err⟩
    | .ok mono =>
      ⟨0, if want_range then some range else none,
          if want_mono then some mono else none, false⟩

/-- Configuration constant WTMLIB_TSC_PER_SEC_SAMPLE_COUNT
(wtmlib_config.h). -/
def TSC_PER_SEC_SAMPLE_COUNT : Nat := 30

/-- Oracle for the sub-steps of wtmlib_GetTSCToNsecConversionParams: the
calloc, the per-sample rate measurements, the noise cleaning, and the
time-before-wrap computation. -/
structure ConvOracle where
  alloc_ok : Bool
  sample_res : Nat → Except Nat Nat
  clean_res : Except Nat Nat
  wrap_res : Except Nat Nat

/-- The sampling loop of wtmlib_GetTSCToNsecConversionParams
(wtmlib.c:3178-3194): n iterations, aborted by the first failing
measurement. -/
def sampleLoop (f : Nat → Except Nat Nat) : Nat → Except Nat Unit
  | 0 => .ok ()
  | n + 1 =>
    match sampleLoop f n with
    | .error c => .error c
    | .ok _ =>
      match f n with
      | .error c => .error c
      | .ok _ => .ok ()

/-- Observable outcome of wtmlib_GetTSCToNsecConversionParams. -/
structure ConvOutcome where
  ret : Nat
  conv_out : Option TSCConversionParams
  secs_out : Option Nat
  err_out : Bool
  deriving DecidableEq

/-- Shallow embedding of the control flow of
wtmlib_GetTSCToNsecConversionParams (wtmlib.c:3147-3239); the
conversion-parameter computation itself is the embedded
wtmlib_CalcTSCToNsecConversionParams. -/
def wtmlib_GetTSCToNsecConversionParamsOp (o : ConvOracle)
    (want_conv want_secs want_err : Bool) : ConvOutcome :=
  if ¬o.alloc_ok then ⟨1, none, none, want_err⟩
  else match sampleLoop o.sample_res TSC_PER_SEC_SAMPLE_COUNT with
  | .error c => ⟨c + 1, none, none, want_err⟩
  | .ok _ =>
    match o.clean_res with
    | .error c => ⟨c + 1, none, none, want_err⟩
    | .ok tsc_per_sec =>
      match wtmlib_CalcTSCToNsecConversionParams tsc_per_sec with
      | none => ⟨1, none, none, want_err⟩
      | some conv_params =>
        match o.wrap_res with
        | .error c => ⟨c + 1, none, none, want_err⟩
        | .ok secs =>
          ⟨0, if want_conv then some conv_params else none,
              if want_secs then some secs else none, false⟩

/-- C7: state restoration performs exactly two affinity steps in order — pin
to the captured initial CPU alone, then widen to the captured initial mask —
and returns 0 exactly when the allocation and both steps succeed; on success
the thread's affinity mask equals the captured initial mask, so capture
followed by restore leaves the observable mask at its pre-capture value; and
in wtmlib_EvalTSCReliabilityCPUSW a restoration failure is surfaced as a
non-zero status with both result out-pointers left unwritten. -/
theorem C7_restore_state (st : ProcAndSysState) (o : RestoreOracle) (cur_mask : Nat) :
    ((wtmlib_RestoreInitialProcState st o cur_mask).ret = 0 ↔
      o.alloc_ok = true ∧ o.set_initial_cpu_ok = true ∧ o.set_initial_mask_ok = true) ∧
    ((wtmlib_RestoreInitialProcState st o cur_mask).ret = 0 →
      (wtmlib_RestoreInitialProcState st o cur_mask).trace =
        [2 ^ st.initial_cpu, st.initial_cpu_set] ∧
      (wtmlib_RestoreInitialProcState st o cur_mask).mask = st.initial_cpu_set) ∧
    (∀ num_cpus cur_cpu cline inner_mask,
      (wtmlib_RestoreInitialProcState
        (wtmlib_GetProcAndSystemState num_cpus cur_cpu cur_mask cline)
        ⟨true, true, true⟩ inner_mask).mask = cur_mask) ∧
    (∀ (oc : CPUSWOracle) (w1 w2 w3 : Bool), oc.restore_ok = false →
      (wtmlib_EvalTSCReliabilityCPUSW oc w1 w2 w3).ret ≠ 0 ∧
      (wtmlib_EvalTSCReliabilityCPUSW oc w1 w2 w3).range_out = none ∧
      (wtmlib_EvalTSCReliabilityCPUSW oc w1 w2 w3).mono_out = none) := by
  obtain ⟨aok, s1, s2⟩ := o
  refine ⟨?_, ?_, ?_, ?_⟩
  · cases aok <;> cases s1 <;> cases s2 <;> simp [wtmlib_RestoreInitialProcState]
  · cases aok <;> cases s1 <;> cases s2 <;> simp [wtmlib_RestoreInitialProcState]
  · intro num_cpus cur_cpu cline inner_mask
    simp [wtmlib_RestoreInitialProcState, wtmlib_GetProcAndSystemState]
  · intro oc w1 w2 w3 hrf
    obtain ⟨sok, rres, mres, restok⟩ := oc
    simp only at hrf
    subst hrf
    cases sok <;> rcases rres with c | v <;> rcases mres with c2 | v2 <;>
      simp [wtmlib_EvalTSCReliabilityCPUSW]

/-- Witness for C7_restore_state: a concrete successful restoration installs
first the single-CPU mask of the initial CPU and then the initial mask, and
ends with the initial mask. -/
theorem C7_restore_state_witness :
    (wtmlib_RestoreInitialProcState ⟨4, 2, 13, 64⟩ ⟨true, true, true⟩ 9).trace =
      [4, 13] ∧
    (wtmlib_RestoreInitialProcState ⟨4, 2, 13, 64⟩ ⟨true, true, true⟩ 9).mask = 13 :=
  (C7_restore_state ⟨4, 2, 13, 64⟩ ⟨true, true, true⟩ 9).2.1 (by decide)

/-- C8: for each of the three public operations, when the returned status is
non-zero every result out-pointer is left unmodified, and the error-message
buffer is written only when the status is non-zero. -/
theorem C8_results_only_on_ok :
    (∀ (o : CPUSWOracle) (want_range want_mono want_err : Bool),
      ((wtmlib_EvalTSCReliabilityCPUSW o want_range want_mono want_err).ret ≠ 0 →
        (wtmlib_EvalTSCReliabilityCPUSW o want_range want_mono want_err).range_out = none ∧
        (wtmlib_EvalTSCReliabilityCPUSW o want_range want_mono want_err).mono_out = none) ∧
      ((wtmlib_EvalTSCReliabilityCPUSW o want_range want_mono want_err).err_out = true →
        (wtmlib_EvalTSCReliabilityCPUSW o want_range want_mono want_err).ret ≠ 0)) ∧
    (∀ (o : COPOracle) (want_range want_mono want_err : Bool),
      ((wtmlib_EvalTSCReliabilityCOP o want_range want_mono want_err).ret ≠ 0 →
        (wtmlib_EvalTSCReliabilityCOP o want_range want_mono want_err).range_out = none ∧
        (wtmlib_EvalTSCReliabilityCOP o want_range want_mono want_err).mono_out = none) ∧
      ((wtmlib_EvalTSCReliabilityCOP o want_range want_mono want_err).err_out = true →
        (wtmlib_EvalTSCReliabilityCOP o want_range want_mono want_err).ret ≠ 0)) ∧
    (∀ (o : ConvOracle) (want_conv want_secs want_err : Bool),
      ((wtmlib_GetTSCToNsecConversionParamsOp o want_conv want_secs want_err).ret ≠ 0 →
        (wtmlib_GetTSCToNsecConversionParamsOp o want_conv want_secs want_err).conv_out = none ∧
        (wtmlib_GetTSCToNsecConversionParamsOp o want_conv want_secs want_err).secs_out = none) ∧
      ((wtmlib_GetTSCToNsecConversionParamsOp o want_conv want_secs want_err).err_out = true →
        (wtmlib_GetTSCToNsecConversionParamsOp o want_conv want_secs want_err).ret ≠ 0)) := by
  refine ⟨?_, ?_, ?_⟩
  · intro o w1 w2 w3
    obtain ⟨sok, rres, mres, restok⟩ := o
    cases sok <;> cases restok <;> rcases rres with c | v <;> rcases mres with c2 | v2 <;>
      simp [wtmlib_EvalTSCReliabilityCPUSW]
  · intro o w1 w2 w3
    obtain ⟨sok, rres, mres⟩ := o
    cases sok <;> rcases rres with c | v <;> rcases mres with c2 | v2 <;>
      simp [wtmlib_EvalTSCReliabilityCOP]
  · intro o w1 w2 w3
    obtain ⟨aok, sres, cres, wres⟩ := o
    cases aok
    · simp [wtmlib_GetTSCToNsecConversionParamsOp]
    · rcases hs : sampleLoop sres TSC_PER_SEC_SAMPLE_COUNT with c1 | u
      · simp [wtmlib_GetTSCToNsecConversionParamsOp, hs]
      · rcases cres with c2 | tps
        · simp [wtmlib_GetTSCToNsecConversionParamsOp, hs]
        · rcases hcp : wtmlib_CalcTSCToNsecConversionParams tps with _ | p
          · simp [wtmlib_GetTSCToNsecConversionParamsOp, hs, hcp]
          · rcases wres with c3 | secs <;>
              simp [wtmlib_GetTSCToNsecConversionParamsOp, hs, hcp]

/-- Witness for C8_results_only_on_ok: with a failing state capture the CPUSW
evaluation returns non-zero and writes neither out-pointer. -/
theorem C8_results_only_on_ok_witness :
    (wtmlib_EvalTSCReliabilityCPUSW ⟨false, .ok 0, .ok true, true⟩ true true true).range_out =
      none ∧
    (wtmlib_EvalTSCReliabilityCPUSW ⟨false, .ok 0, .ok true, true⟩ true true true).mono_out =
      none :=
  (C8_results_only_on_ok.1 ⟨false, .ok 0, .ok true, true⟩ true true true).1 (by decide)

/-- C9: every public operation tolerates null output pointers: the returned
status code does not depend on which out-pointers are present, and a null
out-pointer (modelled by a false want flag) is never written. -/
theorem C9_null_out_pointers :
    (∀ (o : CPUSWOracle) (w1 w2 w3 v1 v2 v3 : Bool),
      (wtmlib_EvalTSCReliabilityCPUSW o w1 w2 w3).ret =
        (wtmlib_EvalTSCReliabilityCPUSW o v1 v2 v3).ret) ∧
    (∀ (o : CPUSWOracle) (w2 w3 : Bool),
      (wtmlib_EvalTSCReliabilityCPUSW o false w2 w3).range_out = none) ∧
    (∀ (o : CPUSWOracle) (w1 w3 : Bool),
      (wtmlib_EvalTSCReliabilityCPUSW o w1 false w3).mono_out = none) ∧
    (∀ (o : CPUSWOracle) (w1 w2 : Bool),
      (wtmlib_EvalTSCReliabilityCPUSW o w1 w2 false).err_out = false) ∧
    (∀ (o : COPOracle) (w1 w2 w3 v1 v2 v3 : Bool),
      (wtmlib_EvalTSCReliabilityCOP o w1 w2 w3).ret =
        (wtmlib_EvalTSCReliabilityCOP o v1 v2 v3).ret) ∧
    (∀ (o : COPOracle) (w2 w3 : Bool),
      (wtmlib_EvalTSCReliabilityCOP o false w2 w3).range_out = none) ∧
    (∀ (o : COPOracle) (w1 w3 : Bool),
      (wtmlib_EvalTSCReliabilityCOP o w1 false w3).mono_out = none) ∧
    (∀ (o : COPOracle) (w1 w2 : Bool),
      (wtmlib_EvalTSCReliabilityCOP o w1 w2 false).err_out = false) ∧
    (∀ (o : ConvOracle) (w1 w2 w3 v1 v2 v3 : Bool),
      (wtmlib_GetTSCToNsecConversionParamsOp o w1 w2 w3).ret =
        (wtmlib_GetTSCToNsecConversionParamsOp o v1 v2 v3).ret) ∧
    (∀ (o : ConvOracle) (w2 w3 : Bool),
      (wtmlib_GetTSCToNsecConversionParamsOp o false w2 w3).conv_out = none) ∧
    (∀ (o : ConvOracle) (w1 w3 : Bool),
      (wtmlib_GetTSCToNsecConversionParamsOp o w1 false w3).secs_out = none) ∧
    (∀ (o : ConvOracle) (w1 w2 : Bool),
      (wtmlib_GetTSCToNsecConversionParamsOp o w1 w2 false).err_out = false) := by
  refine ⟨?_, ?_, ?_, ?_, ?_, ?_, ?_, ?_, ?_, ?_, ?_, ?_⟩ <;> intro o
  all_goals
    first
    | (obtain ⟨sok, rres, mres, restok⟩ := o
       intros
       cases sok <;> cases restok <;> rcases rres with c | v <;> rcases mres with c2 | v2 <;>
         simp [wtmlib_EvalTSCReliabilityCPUSW])
    | (obtain ⟨sok, rres, mres⟩ := o
       intros
       cases sok <;> rcases rres with c | v <;> rcases mres with c2 | v2 <;>
         simp [wtmlib_EvalTSCReliabilityCOP])
    | (obtain ⟨aok, sres, cres, wres⟩ := o
       intros
       cases aok <;> [simp [wtmlib_GetTSCToNsecConversionParamsOp]; skip]
       rcases hs : sampleLoop sres TSC_PER_SEC_SAMPLE_COUNT with c1 | u <;>
         [simp [wtmlib_GetTSCToNsecConversionParamsOp, hs]; skip]
       rcases cres with c2 | tps <;>
         [simp [wtmlib_GetTSCToNsecConversionParamsOp, hs]; skip]
       rcases hcp : wtmlib_CalcTSCToNsecConversionParams tps with _ | p <;>
         [simp [wtmlib_GetTSCToNsecConversionParamsOp, hs, hcp]; skip]
       rcases wres with c3 | secs <;>
         simp [wtmlib_GetTSCToNsecConversionParamsOp, hs, hcp])

/-! ## C9 component: wtmlib_CalcFreeFromNoiseTSCPerSec (wtmlib.c:2759-2836).
The C function computes with `double`; the embedding uses exact rational
arithmetic (the idealised real-number semantics of the same formulas).  The
source compares ABS_DIFF(x, mean) against sigma = sqrt(S / (n - 1)); since
both sides are non-negative this is equivalent to comparing squares, which is
how the filter is embedded (sqrt is not rational). -/

/-- Sum of the samples as rationals. -/
def sumQ (xs : List Nat) : ℚ := (xs.map fun x => (x : ℚ)).sum

/-- Sum of the squared samples as rationals. -/
def sumSqQ (xs : List Nat) : ℚ := (xs.map fun x => ((x : ℚ) ^ 2)).sum

/-- The Welford loop of wtmlib_CalcFreeFromNoiseTSCPerSec (wtmlib.c:2778-2783):
delta = x[i] - mean; mean += delta / (i + 1.0); S += delta * (x[i] - mean),
with the updated mean used in the last expression, exactly as in the source. -/
def welfordGo : List Nat → Nat → ℚ × ℚ → ℚ × ℚ
  | [], _, st => st
  | x :: rest, i, st =>
    welfordGo rest (i + 1)
      (st.1 + ((x : ℚ) - st.1) / ((i : ℚ) + 1),
       st.2 + ((x : ℚ) - st.1) *
         ((x : ℚ) - (st.1 + ((x : ℚ) - st.1) / ((i : ℚ) + 1))))

/-- Running mean and Welford S of the whole sample list, started from
mean = 0.0, S = 0.0. -/
def welford (xs : List Nat) : ℚ × ℚ := welfordGo xs 0 (0, 0)

/-- Square of the corrected sample standard deviation computed at
wtmlib.c:2791: S / (n - 1.0) for n > 1, S for n = 1 (the source then takes
sqrt, which the embedding avoids by comparing squares). -/
def sigmaSq (xs : List Nat) : ℚ :=
  if 1 < xs.length then (welford xs).2 / ((xs.length : ℚ) - 1)
  else (welford xs).2

/-- The number of samples kept by the outlier filter of wtmlib.c:2801-2820:
a sample is skipped when ABS_DIFF((double)x, mean) > sigma, i.e. kept when
(x - mean)^2 ≤ sigma^2. -/
def num_good_samples (xs : List Nat) : Nat :=
  xs.countP (fun x : Nat => decide (((x : ℚ) - (welford xs).1) ^ 2 ≤ sigmaSq xs))

/-- The minimum-sample computation of wtmlib.c:2794-2798 (min_sample starts
at UINT64_MAX). -/
def minSample (xs : List Nat) : Nat :=
  xs.foldl (fun m x => if x < m then x else m) U64_MAX

/-- One iteration of the filter-and-accumulate loop of wtmlib.c:2801-2820:
kept samples are counted and their offsets from the minimum sample summed,
with the overflow check of wtmlib.c:2811 returning WTMLIB_RET_GENERIC_ERR
(sticky in the fold). -/
def goodStep (mean sSq : ℚ) (min_sample : Nat) (st : Except Unit (Nat × Nat))
    (x : Nat) : Except Unit (Nat × Nat) :=
  match st with
  | .error e => .error e
  | .ok (num_good, average) =>
    if ((x : ℚ) - mean) ^ 2 ≤ sSq then
      if U64_MAX - average < x - min_sample then .error ()
      else .ok (num_good + 1, average + (x - min_sample))
    else .ok (num_good, average)

/-- The filter-and-accumulate loop of wtmlib.c:2801-2820. -/
def goodSumLoop (xs : List Nat) (mean sSq : ℚ) (min_sample : Nat) :
    Except Unit (Nat × Nat) :=
  xs.foldl (goodStep mean sSq min_sample) (.ok (0, 0))

/-- Shallow embedding of wtmlib_CalcFreeFromNoiseTSCPerSec (wtmlib.c:2759):
Welford statistics, outlier filter, then average = sum-of-offsets /
num_good_samples + min_sample. -/
def wtmlib_CalcFreeFromNoiseTSCPerSec (xs : List Nat) : Except Unit Nat :=
  match goodSumLoop xs (welford xs).1 (sigmaSq xs) (minSample xs) with
  | .error e => .error e
  | .ok (num_good, average) => .ok (average / num_good + minSample xs)

theorem welfordGo_closed (xs : List Nat) :
    ∀ (i : Nat) (q1 q2 : ℚ), (i = 0 → q1 = 0 ∧ q2 = 0) →
    welfordGo xs i (q1 / (i : ℚ), q2 - q1 ^ 2 / (i : ℚ)) =
      ((q1 + sumQ xs) / ((i : ℚ) + xs.length),
       (q2 + sumSqQ xs) - (q1 + sumQ xs) ^ 2 / ((i : ℚ) + xs.length)) := by
  induction xs with
  | nil =>
    intro i q1 q2 h0
    simp [welfordGo, sumQ, sumSqQ]
  | cons x rest ih =>
    intro i q1 q2 h0
    rw [welfordGo]
    have hmean : q1 / (i : ℚ) + ((x : ℚ) - q1 / (i : ℚ)) / ((i : ℚ) + 1) =
        (q1 + (x : ℚ)) / ((i : ℚ) + 1) := by
      rcases Nat.eq_zero_or_pos i with hi | hi
      · obtain ⟨e1, _⟩ := h0 hi
        subst hi
        subst e1
        norm_num
      · have hne : (i : ℚ) ≠ 0 := Nat.cast_ne_zero.mpr (by omega)
        have hne1 : (i : ℚ) + 1 ≠ 0 := by positivity
        field_simp
        ring
    have hS : (q2 - q1 ^ 2 / (i : ℚ)) + ((x : ℚ) - q1 / (i : ℚ)) *
          ((x : ℚ) - (q1 + (x : ℚ)) / ((i : ℚ) + 1)) =
        (q2 + (x : ℚ) ^ 2) - (q1 + (x : ℚ)) ^ 2 / ((i : ℚ) + 1) := by
      rcases Nat.eq_zero_or_pos i with hi | hi
      · obtain ⟨e1, e2⟩ := h0 hi
        subst hi
        subst e1
        subst e2
        norm_num
        try ring
      · have hne : (i : ℚ) ≠ 0 := Nat.cast_ne_zero.mpr (by omega)
        have hne1 : (i : ℚ) + 1 ≠ 0 := by positivity
        field_simp
        try ring
    rw [hmean, hS]
    have hcast : ((i + 1 : Nat) : ℚ) = (i : ℚ) + 1 := by push_cast; ring
    have hih := ih (i + 1) (q1 + (x : ℚ)) (q2 + (x : ℚ) ^ 2) (by omega)
    rw [hcast] at hih
    rw [hih]
    have hsum : sumQ (x :: rest) = (x : ℚ) + sumQ rest := by simp [sumQ]
    have hsumsq : sumSqQ (x :: rest) = (x : ℚ) ^ 2 + sumSqQ rest := by simp [sumSqQ]
    have hlen : ((x :: rest).length : ℚ) = (rest.length : ℚ) + 1 := by
      rw [List.length_cons]
      push_cast
      ring
    rw [hsum, hsumsq, hlen]
    simp only [Prod.mk.injEq]
    constructor <;> ring_nf

theorem welford_mean (xs : List Nat) :
    (welford xs).1 = sumQ xs / (xs.length : ℚ) := by
  have h := welfordGo_closed xs 0 0 0 (fun _ => ⟨rfl, rfl⟩)
  rw [welford, show ((0 : ℚ), (0 : ℚ)) = ((0 : ℚ) / ((0 : Nat) : ℚ),
    (0 : ℚ) - (0 : ℚ) ^ 2 / ((0 : Nat) : ℚ)) from by norm_num, h]
  norm_num

theorem welford_S (xs : List Nat) :
    (welford xs).2 = sumSqQ xs - sumQ xs ^ 2 / (xs.length : ℚ) := by
  have h := welfordGo_closed xs 0 0 0 (fun _ => ⟨rfl, rfl⟩)
  rw [welford, show ((0 : ℚ), (0 : ℚ)) = ((0 : ℚ) / ((0 : Nat) : ℚ),
    (0 : ℚ) - (0 : ℚ) ^ 2 / ((0 : Nat) : ℚ)) from by norm_num, h]
  norm_num

theorem spread_sum (xs : List Nat) (μ : ℚ) :
    (xs.map fun x : Nat => ((x : ℚ) - μ) ^ 2).sum =
      sumSqQ xs - 2 * μ * sumQ xs + (xs.length : ℚ) * μ ^ 2 := by
  induction xs with
  | nil => simp [sumQ, sumSqQ]
  | cons x rest ih =>
    have hs : sumQ (x :: rest) = (x : ℚ) + sumQ rest := by simp [sumQ]
    have hss : sumSqQ (x :: rest) = (x : ℚ) ^ 2 + sumSqQ rest := by simp [sumSqQ]
    rw [List.map_cons, List.sum_cons, ih, hs, hss, List.length_cons]
    push_cast
    ring

theorem welford_S_eq_spread (xs : List Nat) (h : xs ≠ []) :
    (welford xs).2 = (xs.map fun x : Nat => ((x : ℚ) - (welford xs).1) ^ 2).sum := by
  have hn : (xs.length : ℚ) ≠ 0 := by
    have h2 : xs.length ≠ 0 := by
      intro h3
      exact h (List.length_eq_zero.mp h3)
    exact_mod_cast h2
  rw [welford_mean, welford_S, spread_sum]
  field_simp
  ring

theorem welford_S_nonneg (xs : List Nat) (h : xs ≠ []) : 0 ≤ (welford xs).2 := by
  rw [welford_S_eq_spread xs h]
  apply List.sum_nonneg
  intro y hy
  simp only [List.mem_map] at hy
  obtain ⟨x, _, rfl⟩ := hy
  positivity

theorem sum_lt_of_forall_lt (l : List ℚ) (c : ℚ) (hne : l ≠ [])
    (h : ∀ y ∈ l, c < y) : c * l.length < l.sum := by
  induction l with
  | nil => exact absurd rfl hne
  | cons y rest ih =>
    rcases eq_or_ne rest [] with hr | hr
    · subst hr
      simp only [List.sum_cons, List.sum_nil, List.length_cons, List.length_nil]
      have := h y (by simp)
      push_cast
      linarith
    · have h1 := ih hr (fun z hz => h z (List.mem_cons_of_mem y hz))
      have h2 := h y (by simp)
      simp only [List.sum_cons, List.length_cons]
      push_cast
      linarith

theorem exists_within_sigma (xs : List Nat) (h : xs ≠ []) :
    ∃ x ∈ xs, ((x : ℚ) - (welford xs).1) ^ 2 ≤ sigmaSq xs := by
  by_contra hc
  push_neg at hc
  have hmapne : xs.map (fun x : Nat => ((x : ℚ) - (welford xs).1) ^ 2) ≠ [] := by
    intro heq
    exact h (List.map_eq_nil_iff.mp heq)
  have hmem : ∀ y ∈ xs.map (fun x : Nat => ((x : ℚ) - (welford xs).1) ^ 2),
      sigmaSq xs < y := by
    intro y hy
    obtain ⟨x, hx, rfl⟩ := List.mem_map.mp hy
    exact hc x hx
  have hsum := sum_lt_of_forall_lt _ (sigmaSq xs) hmapne hmem
  rw [← welford_S_eq_spread xs h, List.length_map] at hsum
  have hS0 := welford_S_nonneg xs h
  rcases Nat.lt_or_ge 1 xs.length with hn | hn
  · rw [sigmaSq, if_pos hn] at hsum
    have hnq : (1 : ℚ) < (xs.length : ℚ) := by exact_mod_cast hn
    have hpos : (0 : ℚ) < (xs.length : ℚ) - 1 := by linarith
    have h2 : (welford xs).2 / ((xs.length : ℚ) - 1) * (xs.length : ℚ) =
        (welford xs).2 * (xs.length : ℚ) / ((xs.length : ℚ) - 1) := by ring
    rw [h2, div_lt_iff₀ hpos] at hsum
    have h3 : (welford xs).2 * ((xs.length : ℚ) - 1) =
        (welford xs).2 * (xs.length : ℚ) - (welford xs).2 := by ring
    rw [h3] at hsum
    linarith
  · have hn1 : xs.length = 1 := by
      have := List.length_pos.mpr h
      omega
    rw [sigmaSq, if_neg (by omega), hn1] at hsum
    norm_num at hsum

theorem num_good_samples_pos (xs : List Nat) (h : xs ≠ []) :
    1 ≤ num_good_samples xs := by
  obtain ⟨x, hx, hgood⟩ := exists_within_sigma xs h
  rw [num_good_samples]
  exact List.countP_pos_iff.mpr ⟨x, hx, by simpa using hgood⟩

theorem goodStep_error_sticky (mean sSq : ℚ) (mn : Nat) (e : Unit) :
    ∀ xs : List Nat, xs.foldl (goodStep mean sSq mn) (.error e) = .error e := by
  intro xs
  induction xs with
  | nil => rfl
  | cons x rest ih =>
    rw [List.foldl_cons]
    exact ih

theorem goodSumLoop_count (mean sSq : ℚ) (mn : Nat) :
    ∀ (xs : List Nat) (ng0 avg0 ng avg : Nat),
      xs.foldl (goodStep mean sSq mn) (.ok (ng0, avg0)) = .ok (ng, avg) →
      ng = ng0 + xs.countP (fun x : Nat => decide (((x : ℚ) - mean) ^ 2 ≤ sSq)) := by
  intro xs
  induction xs with
  | nil =>
    intro ng0 avg0 ng avg h
    simp only [List.foldl_nil] at h
    injection h with hp
    injection hp with h1 h2
    simp [← h1]
  | cons x rest ih =>
    intro ng0 avg0 ng avg h
    rw [List.foldl_cons] at h
    by_cases hp : ((x : ℚ) - mean) ^ 2 ≤ sSq
    · by_cases hov : U64_MAX - avg0 < x - mn
      · rw [show goodStep mean sSq mn (.ok (ng0, avg0)) x = .error () from by
          simp [goodStep, hp, hov]] at h
        rw [goodStep_error_sticky] at h
        exact Except.noConfusion h
      · rw [show goodStep mean sSq mn (.ok (ng0, avg0)) x =
            .ok (ng0 + 1, avg0 + (x - mn)) from by simp [goodStep, hp, hov]] at h
        have := ih (ng0 + 1) (avg0 + (x - mn)) ng avg h
        simp [List.countP_cons, hp]
        omega
    · rw [show goodStep mean sSq mn (.ok (ng0, avg0)) x = .ok (ng0, avg0) from by
        simp [goodStep, hp]] at h
      have := ih ng0 avg0 ng avg h
      simp [List.countP_cons, hp]
      omega

/-- C10: for every non-empty sample list, at least one sample lies within one
corrected sample standard deviation of the Welford mean (stated with squared
distances, which is equivalent since both sides of the source comparison are
non-negative), hence the outlier filter of wtmlib_CalcFreeFromNoiseTSCPerSec
keeps at least one sample: num_good_samples ≥ 1 and the division
`average /= num_good_samples` never divides by zero. -/
theorem C10_noise_filter_keeps_sample (xs : List Nat) (h : xs ≠ []) :
    (∃ x ∈ xs, ((x : ℚ) - (welford xs).1) ^ 2 ≤ sigmaSq xs) ∧
    1 ≤ num_good_samples xs ∧
    (∀ ng avg, goodSumLoop xs (welford xs).1 (sigmaSq xs) (minSample xs) = .ok (ng, avg) →
      1 ≤ ng) := by
  refine ⟨exists_within_sigma xs h, num_good_samples_pos xs h, ?_⟩
  intro ng avg heq
  rw [goodSumLoop] at heq
  have h1 := goodSumLoop_count (welford xs).1 (sigmaSq xs) (minSample xs) xs 0 0 ng avg heq
  have h2 := num_good_samples_pos xs h
  rw [num_good_samples] at h2
  omega

/-- Witness for C10_noise_filter_keeps_sample at the sample list [7, 9]. -/
theorem C10_noise_filter_keeps_sample_witness :
    (∃ x ∈ ([7, 9] : List Nat), ((x : ℚ) - (welford [7, 9]).1) ^ 2 ≤ sigmaSq [7, 9]) ∧
    1 ≤ num_good_samples [7, 9] ∧
    (∀ ng avg,
      goodSumLoop [7, 9] (welford [7, 9]).1 (sigmaSq [7, 9]) (minSample [7, 9]) =
        .ok (ng, avg) → 1 ≤ ng) :=
  C10_noise_filter_keeps_sample ([7, 9] : List Nat) (by decide)

/-! ### C6: wtmlib_IsProbeSequenceMonotonic (wtmlib.c:2239-2379)

A CAS-ordered probe stream is modelled by its globally ordered merged
sequence ms : List (Nat × Nat) of (cpu_ind, tsc_val) pairs, ordered by
seq_num.  The per-CPU probe arrays handed to the C function hold
(seq_num, tsc_val) pairs; they are recovered from ms by probesOf. -/

/-- Per-CPU probe list with sequence numbers starting at k: the entries of
ms that belong to cpu_ind c, tagged with their global positions. -/
def probesFrom (k : Nat) (ms : List (Nat × Nat)) (c : Nat) : List (Nat × Nat) :=
  match ms with
  | [] => []
  | p :: rest =>
    if p.1 = c then (k, p.2) :: probesFrom (k + 1) rest c
    else probesFrom (k + 1) rest c

/-- The probe array collected on cpu_ind c, as handed to
wtmlib_IsProbeSequenceMonotonic. -/
def probesOf (ms : List (Nat × Nat)) (c : Nat) : List (Nat × Nat) :=
  probesFrom 0 ms c

/-- Number of probes of cpu_ind c in a merged sequence. -/
def countC (c : Nat) (ms : List (Nat × Nat)) : Nat :=
  ms.countP (fun p => p.1 == c)

/-- WTMLIB_FULL_LOOP_COUNT_THRESHOLD (wtmlib_config.h). -/
def WTMLIB_FULL_LOOP_COUNT_THRESHOLD : Nat := 10

/-- The mutable state of the walk in wtmlib.c:2306-2357: per-CPU cursors
(indexes), the full-loop marks (cpu_seen_num), prev_tsc_val, is_monotonic,
num_loops and cpus_seen. -/
structure MonoWalkSt where
  idxs : Nat → Nat
  cpu_seen : Nat → Nat
  prev : Nat
  mono : Bool
  loops : Nat
  seen : Nat

def monoWalkInit : MonoWalkSt :=
  ⟨fun _ => 0, fun _ => 0, 0, true, 0, 0⟩

/-- indexes[cpu_ind]++ and prev_tsc_val update (wtmlib.c:2325-2326). -/
def bumpCursor (s : MonoWalkSt) (c tsc : Nat) : MonoWalkSt :=
  { s with idxs := fun d => if d = c then s.idxs c + 1 else s.idxs d, prev := tsc }

/-- Full-loop completion check (wtmlib.c:2329-2333). -/
def monoFinal (N first : Nat) (s : MonoWalkSt) (c : Nat) : MonoWalkSt :=
  if s.seen = N ∧ c = first then { s with loops := s.loops + 1, seen := 0 } else s

/-- First-sight marking (wtmlib.c:2337-2343). -/
def monoMark (s : MonoWalkSt) (c : Nat) : MonoWalkSt :=
  if s.cpu_seen c < s.loops + 1 then
    { s with
      cpu_seen := fun d => if d = c then s.cpu_seen c + 1 else s.cpu_seen d,
      seen := s.seen + 1 }
  else s

/-- The body run on the probe found for sequence number i (wtmlib.c:2317-2343):
a TSC decrease only clears is_monotonic (the cursor is not advanced). -/
def monoBody (N first : Nat) (s : MonoWalkSt) (c tsc : Nat) : MonoWalkSt :=
  if tsc < s.prev then { s with mono := false }
  else monoMark (monoFinal N first (bumpCursor s c tsc) c) c

/-- One iteration of the outer loop at wtmlib.c:2306.  The inner scan
(wtmlib.c:2310) looks for the cpu_ind whose cursor probe carries seq_num i;
finding none is the internal-inconsistency exit (WTMLIB_RET_GENERIC_ERR,
modelled as .error ()).  A cursor that ran past its array is an
out-of-bounds read in C; it is modelled by the default pair (total, 0),
whose seq_num total never matches an i < total.  A non-monotonic finding
freezes the state (the two break statements at wtmlib.c:2322 and 2347). -/
def monoStep (probes : Nat → List (Nat × Nat)) (N total first : Nat)
    (st : Except Unit MonoWalkSt) (i : Nat) : Except Unit MonoWalkSt :=
  match st with
  | .error e => .error e
  | .ok s =>
    if s.mono = false then .ok s
    else
      match (List.range N).find?
          (fun c => ((probes c).getD (s.idxs c) (total, 0)).1 == i) with
      | none => .error ()
      | some c =>
        .ok (monoBody N first s c ((probes c).getD (s.idxs c) (total, 0)).2)

/-- first_cpu_ind (wtmlib.c:2293-2302): the cpu_ind whose first probe has
seq_num 0. -/
def firstCpuInd (probes : Nat → List (Nat × Nat)) (N total : Nat) : Nat :=
  (((List.range N).find? (fun c => ((probes c).getD 0 (total, 0)).1 == 0))).getD 0

/-- wtmlib_CheckTSCProbesConsistency (wtmlib.c:1804-1838): on each cpu_ind
the first and last collected TSC values must differ. -/
def checkTSCProbesConsistencyFam (N P : Nat)
    (probes : Nat → List (Nat × Nat)) : Bool :=
  (List.range N).all
    (fun c => ((probes c).getD 0 (0, 0)).2 != ((probes c).getD (P - 1) (0, 0)).2)

/-- wtmlib_IsProbeSequenceMonotonic (wtmlib.c:2239-2379), with allocation
assumed to succeed.  Error codes: 1 = WTMLIB_RET_TSC_INCONSISTENCY,
2 = WTMLIB_RET_GENERIC_ERR (internal inconsistency), 3 = WTMLIB_RET_POOR_STAT;
.ok b returns is_monotonic = b. -/
def wtmlib_IsProbeSequenceMonotonic (N P : Nat)
    (probes : Nat → List (Nat × Nat)) : Except Nat Bool :=
  if checkTSCProbesConsistencyFam N P probes = false then .error 1
  else
    match (List.range (P * N)).foldl
        (monoStep probes N (P * N) (firstCpuInd probes N (P * N)))
        (.ok monoWalkInit) with
    | .error _ => .error 2
    | .ok s =>
      if s.mono = true ∧ s.loops < WTMLIB_FULL_LOOP_COUNT_THRESHOLD then .error 3
      else .ok s.mono

/-- Abstract state for the full-loop count as the spec describes it: the
set of CPUs seen since the last completed loop, kept as a duplicate-free
list. -/
structure SpecSt where
  prev : Nat
  mono : Bool
  loops : Nat
  seen : List Nat

def specInit : SpecSt := ⟨0, true, 0, []⟩

/-- Spec-side full-loop completion: once every allowed CPU was seen, a
probe on the first CPU finalizes a loop and resets the seen set. -/
def specFinal (N first : Nat) (u : SpecSt) (c : Nat) : SpecSt :=
  if u.seen.length = N ∧ c = first then { u with loops := u.loops + 1, seen := [] }
  else u

/-- Spec-side marking: record the probe's CPU in the seen set. -/
def specMark (u : SpecSt) (c : Nat) : SpecSt :=
  if c ∈ u.seen then u else { u with seen := c :: u.seen }

/-- One probe of the spec-side walk: stop on a TSC decrease; otherwise
finalize a loop if due, then record the CPU. -/
def specBody (N first : Nat) (u : SpecSt) (c tsc : Nat) : SpecSt :=
  if tsc < u.prev then { u with mono := false }
  else specMark (specFinal N first { u with prev := tsc } c) c

def specStep (N first : Nat) (u : SpecSt) (p : Nat × Nat) : SpecSt :=
  if u.mono = false then u else specBody N first u p.1 p.2

/-- The spec-side walk over the merged sequence. -/
def specWalk (ms : List (Nat × Nat)) (N first : Nat) : SpecSt :=
  ms.foldl (specStep N first) specInit

theorem probesFrom_length (c : Nat) :
    ∀ (ms : List (Nat × Nat)) (k : Nat), (probesFrom k ms c).length = countC c ms := by
  intro ms
  induction ms with
  | nil => intro k; rfl
  | cons p rest ih =>
    intro k
    rw [probesFrom, countC, List.countP_cons]
    by_cases hp : p.1 = c
    · rw [if_pos hp, List.length_cons, ih (k + 1)]
      have hb : (p.1 == c) = true := by simpa using hp
      rw [countC, hb]
      simp
    · rw [if_neg hp, ih (k + 1)]
      have hb : (p.1 == c) = false := by simpa using hp
      rw [countC, hb]
      simp

theorem probesFrom_split (c : Nat) :
    ∀ (t : Nat) (ms : List (Nat × Nat)) (k : Nat),
      probesFrom k ms c =
        probesFrom k (ms.take t) c ++ probesFrom (k + t) (ms.drop t) c := by
  intro t
  induction t with
  | zero => intro ms k; simp [probesFrom]
  | succ t ih =>
    intro ms k
    cases ms with
    | nil => simp [probesFrom]
    | cons p rest =>
      rw [List.take_succ_cons, List.drop_succ_cons, probesFrom, probesFrom]
      by_cases hp : p.1 = c
      · rw [if_pos hp, if_pos hp, List.cons_append, ih rest (k + 1)]
        have : k + 1 + t = k + (t + 1) := by omega
        rw [this]
      · rw [if_neg hp, if_neg hp, ih rest (k + 1)]
        have : k + 1 + t = k + (t + 1) := by omega
        rw [this]

theorem probesFrom_seq_ge (c : Nat) :
    ∀ (ms : List (Nat × Nat)) (k : Nat) (q : Nat × Nat),
      q ∈ probesFrom k ms c → k ≤ q.1 := by
  intro ms
  induction ms with
  | nil =>
    intro k q hq
    rw [probesFrom] at hq
    simp at hq
  | cons p rest ih =>
    intro k q hq
    rw [probesFrom] at hq
    by_cases hp : p.1 = c
    · rw [if_pos hp] at hq
      rcases List.mem_cons.mp hq with h1 | h1
      · subst h1; exact le_refl k
      · exact Nat.le_of_succ_le (ih (k + 1) q h1)
    · rw [if_neg hp] at hq
      exact Nat.le_of_succ_le (ih (k + 1) q hq)

theorem getD_append_length (l1 l2 : List (Nat × Nat)) (d : Nat × Nat) :
    (l1 ++ l2).getD l1.length d = l2.getD 0 d := by
  induction l1 with
  | nil => rfl
  | cons a l ih => rw [List.cons_append, List.length_cons, List.getD_cons_succ, ih]

/-- The cursor probe of cpu_ind c after the first t merged probes were
consumed: it is the probe at global position t itself when that one belongs
to c, and otherwise its seq_num differs from t. -/
theorem cursor_probe (ms : List (Nat × Nat)) (c t total : Nat)
    (ht : t < ms.length) (htot : ms.length ≤ total) :
    (c = (ms.get ⟨t, ht⟩).1 →
      (probesOf ms c).getD (countC c (ms.take t)) (total, 0) =
        (t, (ms.get ⟨t, ht⟩).2)) ∧
    (c ≠ (ms.get ⟨t, ht⟩).1 →
      ((probesOf ms c).getD (countC c (ms.take t)) (total, 0)).1 ≠ t) := by
  have hsplit := probesFrom_split c t ms 0
  have hlen := probesFrom_length c (ms.take t) 0
  have hdrop : ms.drop t = ms.get ⟨t, ht⟩ :: ms.drop (t + 1) := by
    rw [List.drop_eq_getElem_cons ht]
    rfl
  rw [probesOf, hsplit, Nat.zero_add, ← hlen, getD_append_length, hdrop, probesFrom]
  constructor
  · intro hc
    rw [if_pos hc.symm, List.getD_cons_zero]
  · intro hc
    rw [if_neg (fun h => hc h.symm)]
    cases hrest : probesFrom (t + 1) (ms.drop (t + 1)) c with
    | nil =>
      have hd0 : (([] : List (Nat × Nat)).getD 0 (total, 0)) = (total, 0) := rfl
      rw [hd0]
      show total ≠ t
      omega
    | cons q qs =>
      rw [List.getD_cons_zero]
      have := probesFrom_seq_ge c (ms.drop (t + 1)) (t + 1) q
        (by rw [hrest]; exact List.mem_cons_self q qs)
      omega

theorem find_first_unique (q : Nat → Bool) (c : Nat) :
    ∀ l : List Nat, c ∈ l → q c = true → (∀ d ∈ l, q d = true → d = c) →
      l.find? q = some c := by
  intro l
  induction l with
  | nil => intro hc; simp at hc
  | cons a rest ih =>
    intro hc hq huniq
    by_cases ha : q a = true
    · rw [List.find?_cons_of_pos _ ha, huniq a (List.mem_cons_self a rest) ha]
    · rw [List.find?_cons_of_neg _ ha]
      rcases List.mem_cons.mp hc with h1 | h1
      · exact absurd (h1 ▸ hq) ha
      · exact ih h1 hq (fun d hd => huniq d (List.mem_cons_of_mem a hd))

theorem mem_of_nodup_full (l : List Nat) (N : Nat) (hn : l.Nodup)
    (hlt : ∀ d ∈ l, d < N) (hlen : N ≤ l.length) (d : Nat) (hd : d < N) :
    d ∈ l := by
  have hsub : l.toFinset ⊆ Finset.range N := by
    intro x hx
    exact Finset.mem_range.mpr (hlt x (List.mem_toFinset.mp hx))
  have hcard : (Finset.range N).card ≤ l.toFinset.card := by
    rw [Finset.card_range, List.toFinset_card_of_nodup hn]
    exact hlen
  have heq := Finset.eq_of_subset_of_card_le hsub hcard
  rw [← List.mem_toFinset, heq]
  exact Finset.mem_range.mpr hd

/-- Simulation relation between the counter-based walk state of the source
and the set-based spec state: the counters mark exactly the CPUs in the
seen set of the current loop. -/
structure MonoRel (N : Nat) (s : MonoWalkSt) (u : SpecSt) : Prop where
  prev_eq : s.prev = u.prev
  mono_eq : s.mono = u.mono
  loops_eq : s.loops = u.loops
  seen_eq : s.seen = u.seen.length
  marks_iff : ∀ d, d < N → (d ∈ u.seen ↔ s.cpu_seen d = s.loops + 1)
  marks_range : ∀ d, d < N → s.cpu_seen d = s.loops ∨ s.cpu_seen d = s.loops + 1
  seen_nodup : u.seen.Nodup
  seen_bounds : ∀ d ∈ u.seen, d < N

theorem fm_sim (N first c : Nat) (_hfirst : first < N) (hc : c < N)
    (s : MonoWalkSt) (u : SpecSt) (hrel : MonoRel N s u) :
    MonoRel N (monoMark (monoFinal N first s c) c)
      (specMark (specFinal N first u c) c) := by
  by_cases hfin : s.seen = N ∧ c = first
  · have hfinu : u.seen.length = N ∧ c = first := by
      rw [← hrel.seen_eq]; exact hfin
    have hall : ∀ d, d < N → s.cpu_seen d = s.loops + 1 := by
      intro d hd
      refine (hrel.marks_iff d hd).mp ?_
      exact mem_of_nodup_full u.seen N hrel.seen_nodup hrel.seen_bounds
        (by omega) d hd
    rw [monoFinal, if_pos hfin, specFinal, if_pos hfinu]
    rw [monoMark, if_pos (show s.cpu_seen c < s.loops + 1 + 1 by
      have := hall c hc; omega)]
    rw [specMark, if_neg (show ¬ c ∈ ([] : List Nat) by simp)]
    refine ⟨hrel.prev_eq, hrel.mono_eq, ?_, ?_, ?_, ?_, ?_, ?_⟩
    · show s.loops + 1 = u.loops + 1
      rw [hrel.loops_eq]
    · show 0 + 1 = [c].length
      rfl
    · intro d hd
      show d ∈ [c] ↔ (if d = c then s.cpu_seen c + 1 else s.cpu_seen d) = s.loops + 1 + 1
      by_cases hdc : d = c
      · subst hdc
        rw [if_pos rfl]
        have := hall d hc
        constructor
        · intro _; omega
        · intro _; exact List.mem_singleton.mpr rfl
      · rw [if_neg hdc]
        have := hall d hd
        constructor
        · intro h1; exact absurd (List.mem_singleton.mp h1) hdc
        · intro h1; exfalso; omega
    · intro d hd
      show (if d = c then s.cpu_seen c + 1 else s.cpu_seen d) = s.loops + 1 ∨
        (if d = c then s.cpu_seen c + 1 else s.cpu_seen d) = s.loops + 1 + 1
      by_cases hdc : d = c
      · rw [if_pos hdc]
        have := hall c hc; omega
      · rw [if_neg hdc]
        have := hall d hd; omega
    · show ([c] : List Nat).Nodup
      simp
    · intro d hd
      have : d = c := by simpa using hd
      subst this; exact hc
  · have hfinu : ¬(u.seen.length = N ∧ c = first) := by
      rw [← hrel.seen_eq]; exact hfin
    rw [monoFinal, if_neg hfin, specFinal, if_neg hfinu]
    by_cases hmem : c ∈ u.seen
    · have hcm : s.cpu_seen c = s.loops + 1 := (hrel.marks_iff c hc).mp hmem
      rw [monoMark, if_neg (by omega), specMark, if_pos hmem]
      exact hrel
    · have hcl : s.cpu_seen c = s.loops := by
        rcases hrel.marks_range c hc with h | h
        · exact h
        · exact absurd ((hrel.marks_iff c hc).mpr h) hmem
      rw [monoMark, if_pos (by omega), specMark, if_neg hmem]
      refine ⟨hrel.prev_eq, hrel.mono_eq, hrel.loops_eq, ?_, ?_, ?_, ?_, ?_⟩
      · show s.seen + 1 = (c :: u.seen).length
        rw [List.length_cons, hrel.seen_eq]
      · intro d hd
        show d ∈ c :: u.seen ↔
          (if d = c then s.cpu_seen c + 1 else s.cpu_seen d) = s.loops + 1
        by_cases hdc : d = c
        · subst hdc
          rw [if_pos rfl]
          constructor
          · intro _; omega
          · intro _; exact List.mem_cons_self d u.seen
        · rw [if_neg hdc, List.mem_cons]
          constructor
          · intro h1
            rcases h1 with h1 | h1
            · exact absurd h1 hdc
            · exact (hrel.marks_iff d hd).mp h1
          · intro h1
            exact Or.inr ((hrel.marks_iff d hd).mpr h1)
      · intro d hd
        show (if d = c then s.cpu_seen c + 1 else s.cpu_seen d) = s.loops ∨
          (if d = c then s.cpu_seen c + 1 else s.cpu_seen d) = s.loops + 1
        by_cases hdc : d = c
        · rw [if_pos hdc]; omega
        · rw [if_neg hdc]; exact hrel.marks_range d hd
      · show (c :: u.seen).Nodup
        exact List.nodup_cons.mpr ⟨hmem, hrel.seen_nodup⟩
      · intro d hd
        rcases List.mem_cons.mp hd with h1 | h1
        · subst h1; exact hc
        · exact hrel.seen_bounds d h1

theorem body_sim (N first c tsc : Nat) (hfirst : first < N) (hc : c < N)
    (s : MonoWalkSt) (u : SpecSt) (hrel : MonoRel N s u) :
    MonoRel N (monoBody N first s c tsc) (specBody N first u c tsc) := by
  rw [monoBody, specBody]
  by_cases hv : tsc < s.prev
  · have hvu : tsc < u.prev := hrel.prev_eq ▸ hv
    rw [if_pos hv, if_pos hvu]
    exact ⟨hrel.prev_eq, rfl, hrel.loops_eq, hrel.seen_eq, hrel.marks_iff,
      hrel.marks_range, hrel.seen_nodup, hrel.seen_bounds⟩
  · have hvu : ¬ tsc < u.prev := fun h => hv (hrel.prev_eq ▸ h)
    rw [if_neg hv, if_neg hvu]
    apply fm_sim N first c hfirst hc
    exact ⟨rfl, hrel.mono_eq, hrel.loops_eq, hrel.seen_eq, hrel.marks_iff,
      hrel.marks_range, hrel.seen_nodup, hrel.seen_bounds⟩

theorem monoFinal_idxs (N first : Nat) (s : MonoWalkSt) (c : Nat) :
    (monoFinal N first s c).idxs = s.idxs := by
  rw [monoFinal]; split <;> rfl

theorem monoMark_idxs (s : MonoWalkSt) (c : Nat) :
    (monoMark s c).idxs = s.idxs := by
  rw [monoMark]; split <;> rfl

theorem countC_take_succ (ms : List (Nat × Nat)) (t : Nat) (ht : t < ms.length)
    (c : Nat) :
    countC c (ms.take (t + 1)) =
      countC c (ms.take t) + if (ms.get ⟨t, ht⟩).1 = c then 1 else 0 := by
  have htake : ms.take (t + 1) = ms.take t ++ [ms.get ⟨t, ht⟩] := by
    rw [List.take_succ, List.getElem?_eq_getElem ht]
    rfl
  rw [htake, countC, List.countP_append]
  have h1 : List.countP (fun p => p.1 == c) [ms.get ⟨t, ht⟩] =
      if (ms.get ⟨t, ht⟩).1 = c then 1 else 0 := by
    rw [List.countP_cons, List.countP_nil]
    by_cases hc : (ms.get ⟨t, ht⟩).1 = c
    · rw [if_pos hc, if_pos (by simpa using hc)]
    · rw [if_neg hc, if_neg (by simpa using hc)]
  rw [h1, countC]

theorem monoWalk_sim (ms : List (Nat × Nat)) (N first : Nat)
    (hcpu : ∀ p ∈ ms, p.1 < N) (hfirst : first < N) (total : Nat)
    (htot : ms.length ≤ total) :
    ∀ t, t ≤ ms.length →
      ∃ s : MonoWalkSt,
        (List.range t).foldl (monoStep (probesOf ms) N total first)
          (.ok monoWalkInit) = .ok s ∧
        MonoRel N s ((ms.take t).foldl (specStep N first) specInit) ∧
        (s.mono = true → ∀ c, s.idxs c = countC c (ms.take t)) := by
  intro t
  induction t with
  | zero =>
    intro _
    refine ⟨monoWalkInit, rfl, ?_, ?_⟩
    · refine ⟨rfl, rfl, rfl, rfl, ?_, ?_, List.nodup_nil, ?_⟩
      · intro d _
        constructor
        · intro hd; simp [specInit] at hd
        · intro hd; simp [monoWalkInit] at hd
      · intro d _; left; rfl
      · intro d hd; simp [specInit] at hd
    · intro _ c; rfl
  | succ t ih =>
    intro ht
    have htl : t < ms.length := by omega
    obtain ⟨s, hfold, hrel, hidx⟩ := ih (by omega)
    have htake : ms.take (t + 1) = ms.take t ++ [ms.get ⟨t, htl⟩] := by
      rw [List.take_succ, List.getElem?_eq_getElem htl]
      rfl
    by_cases hm : s.mono = false
    · have hum : ((ms.take t).foldl (specStep N first) specInit).mono = false :=
        hrel.mono_eq ▸ hm
      refine ⟨s, ?_, ?_, ?_⟩
      · rw [List.range_succ, List.foldl_append, hfold]
        simp only [List.foldl_cons, List.foldl_nil, monoStep]
        rw [if_pos hm]
      · rw [htake, List.foldl_append]
        simp only [List.foldl_cons, List.foldl_nil, specStep]
        rw [if_pos hum]
        exact hrel
      · intro hmt
        rw [hmt] at hm
        exact absurd hm (by decide)
    · have hmt : s.mono = true := by
        revert hm; cases s.mono <;> simp
      have hidx2 := hidx hmt
      have hc0 : (ms.get ⟨t, htl⟩).1 < N := hcpu _ (List.get_mem ms t htl)
      have hgd := (cursor_probe ms (ms.get ⟨t, htl⟩).1 t total htl htot).1 rfl
      have hgd2 : (probesOf ms (ms.get ⟨t, htl⟩).1).getD
          (s.idxs (ms.get ⟨t, htl⟩).1) (total, 0) = (t, (ms.get ⟨t, htl⟩).2) := by
        rw [hidx2 (ms.get ⟨t, htl⟩).1]
        exact hgd
      have hfind : (List.range N).find?
          (fun c => ((probesOf ms c).getD (s.idxs c) (total, 0)).1 == t) =
            some (ms.get ⟨t, htl⟩).1 := by
        apply find_first_unique
        · exact List.mem_range.mpr hc0
        · show (((probesOf ms (ms.get ⟨t, htl⟩).1).getD
            (s.idxs (ms.get ⟨t, htl⟩).1) (total, 0)).1 == t) = true
          rw [hgd2]
          simp
        · intro d _ hq
          by_contra hne
          have h2 := (cursor_probe ms d t total htl htot).2 hne
          rw [← hidx2 d] at h2
          exact h2 (by simpa using hq)
      refine ⟨monoBody N first s (ms.get ⟨t, htl⟩).1 (ms.get ⟨t, htl⟩).2, ?_, ?_, ?_⟩
      · rw [List.range_succ, List.foldl_append, hfold]
        simp only [List.foldl_cons, List.foldl_nil, monoStep]
        rw [if_neg (by rw [hmt]; decide), hfind]
        show Except.ok (monoBody N first s (ms.get ⟨t, htl⟩).1
          ((probesOf ms (ms.get ⟨t, htl⟩).1).getD
            (s.idxs (ms.get ⟨t, htl⟩).1) (total, 0)).2) = _
        rw [hgd2]
      · rw [htake, List.foldl_append]
        simp only [List.foldl_cons, List.foldl_nil, specStep]
        rw [if_neg (by rw [← hrel.mono_eq, hmt]; decide)]
        exact body_sim N first (ms.get ⟨t, htl⟩).1 (ms.get ⟨t, htl⟩).2
          hfirst hc0 s ((ms.take t).foldl (specStep N first) specInit) hrel
      · intro hmono c
        rw [monoBody] at hmono ⊢
        by_cases hv : (ms.get ⟨t, htl⟩).2 < s.prev
        · rw [if_pos hv] at hmono
          simp at hmono
        · rw [if_neg hv]
          rw [monoMark_idxs, monoFinal_idxs]
          rw [countC_take_succ ms t htl c, ← hidx2 c]
          show (if c = (ms.get ⟨t, htl⟩).1 then s.idxs (ms.get ⟨t, htl⟩).1 + 1
            else s.idxs c) = _
          by_cases hcc : c = (ms.get ⟨t, htl⟩).1
          · rw [if_pos hcc, if_pos (by rw [hcc]), hcc]
          · rw [if_neg hcc, if_neg (fun h => hcc h.symm)]
            omega

theorem specFinal_mono (N first : Nat) (u : SpecSt) (c : Nat) :
    (specFinal N first u c).mono = u.mono := by
  rw [specFinal]; split <;> rfl

theorem specMark_mono (u : SpecSt) (c : Nat) : (specMark u c).mono = u.mono := by
  rw [specMark]; split <;> rfl

theorem specFinal_prev (N first : Nat) (u : SpecSt) (c : Nat) :
    (specFinal N first u c).prev = u.prev := by
  rw [specFinal]; split <;> rfl

theorem specMark_prev (u : SpecSt) (c : Nat) : (specMark u c).prev = u.prev := by
  rw [specMark]; split <;> rfl

theorem specWalk_mono_sticky (N first : Nat) :
    ∀ (ms : List (Nat × Nat)) (u : SpecSt),
      u.mono = false → (ms.foldl (specStep N first) u).mono = false := by
  intro ms
  induction ms with
  | nil => intro u hu; exact hu
  | cons p rest ih =>
    intro u hu
    rw [List.foldl_cons, show specStep N first u p = u from by rw [specStep, if_pos hu]]
    exact ih u hu

theorem specWalk_mono_iff (N first : Nat) :
    ∀ (ms : List (Nat × Nat)) (u : SpecSt), u.mono = true →
      ((ms.foldl (specStep N first) u).mono = true ↔
        List.Chain' (fun a b => a ≤ b) (u.prev :: ms.map Prod.snd)) := by
  intro ms
  induction ms with
  | nil =>
    intro u hu
    rw [List.foldl_nil, hu, List.map_nil]
    simp
  | cons p rest ih =>
    intro u hu
    rw [List.foldl_cons, List.map_cons, List.chain'_cons]
    by_cases hv : p.2 < u.prev
    · have hstep : specStep N first u p = { u with mono := false } := by
        rw [specStep, if_neg (by rw [hu]; decide), specBody, if_pos hv]
      rw [hstep]
      have hs := specWalk_mono_sticky N first rest { u with mono := false } rfl
      constructor
      · intro h; rw [hs] at h; exact absurd h (by decide)
      · intro h; exact absurd h.1 (by omega)
    · have h1 : specStep N first u p =
          specMark (specFinal N first { u with prev := p.2 } p.1) p.1 := by
        rw [specStep, if_neg (by rw [hu]; decide), specBody, if_neg hv]
      have hm : (specStep N first u p).mono = true := by
        rw [h1, specMark_mono, specFinal_mono]
        exact hu
      have hp : (specStep N first u p).prev = p.2 := by
        rw [h1, specMark_prev, specFinal_prev]
      rw [ih (specStep N first u p) hm, hp]
      constructor
      · intro hc; exact ⟨by omega, hc⟩
      · intro hc; exact hc.2

theorem chain_zero_cons (l : List Nat) :
    List.Chain' (fun a b => a ≤ b) ((0 : Nat) :: l) ↔
      List.Chain' (fun a b => a ≤ b) l := by
  cases l with
  | nil => simp
  | cons x xs =>
    rw [List.chain'_cons]
    simp [Nat.zero_le]

theorem firstCpuInd_eq (ms : List (Nat × Nat)) (N total : Nat)
    (hne : 0 < ms.length) (hcpu : ∀ p ∈ ms, p.1 < N)
    (htot : ms.length ≤ total) :
    firstCpuInd (probesOf ms) N total = (ms.get ⟨0, hne⟩).1 := by
  rw [firstCpuInd]
  have hgd := (cursor_probe ms (ms.get ⟨0, hne⟩).1 0 total hne htot).1 rfl
  have hgd0 : (probesOf ms (ms.get ⟨0, hne⟩).1).getD 0 (total, 0) =
      (0, (ms.get ⟨0, hne⟩).2) := hgd
  have hfind : (List.range N).find?
      (fun c => ((probesOf ms c).getD 0 (total, 0)).1 == 0) =
        some (ms.get ⟨0, hne⟩).1 := by
    apply find_first_unique
    · exact List.mem_range.mpr (hcpu _ (List.get_mem ms 0 hne))
    · show (((probesOf ms (ms.get ⟨0, hne⟩).1).getD 0 (total, 0)).1 == 0) = true
      rw [hgd0]
      simp
    · intro d _ hq
      by_contra hdne
      have h2 := (cursor_probe ms d 0 total hne htot).2 hdne
      have h2b : ((probesOf ms d).getD 0 (total, 0)).1 ≠ 0 := h2
      exact h2b (by simpa using hq)
  rw [hfind]
  rfl

/-- C6: for a globally ordered CAS probe sequence (over N CPUs, P probes
per CPU, all cpu indexes in range) whose per-CPU arrays pass the
first-equals-last consistency gate, wtmlib_IsProbeSequenceMonotonic
returns the poor-statistics failure (error 3) exactly when the TSC values
are monotonic along the global order and the number of full loops counted
by the spec-side set-based walk is below WTMLIB_FULL_LOOP_COUNT_THRESHOLD;
and a non-monotonic sequence is always reported as success with
is_monotonic = false, regardless of the loop count. -/
theorem C6_monotonicity_poor_stat (ms : List (Nat × Nat)) (N P : Nat)
    (hne : ms ≠ []) (hcpu : ∀ p ∈ ms, p.1 < N) (hlen : ms.length = P * N)
    (hgate : checkTSCProbesConsistencyFam N P (probesOf ms) = true) :
    (wtmlib_IsProbeSequenceMonotonic N P (probesOf ms) = .error 3 ↔
      (List.Chain' (fun a b => a ≤ b) (ms.map Prod.snd) ∧
        (specWalk ms N (ms.headD (0, 0)).1).loops <
          WTMLIB_FULL_LOOP_COUNT_THRESHOLD)) ∧
    (¬ List.Chain' (fun a b => a ≤ b) (ms.map Prod.snd) →
      wtmlib_IsProbeSequenceMonotonic N P (probesOf ms) = .ok false) := by
  have hlen0 : 0 < ms.length := List.length_pos.mpr hne
  have hfirst : (ms.get ⟨0, hlen0⟩).1 < N := hcpu _ (List.get_mem ms 0 hlen0)
  have hhead : (ms.headD (0, 0)).1 = (ms.get ⟨0, hlen0⟩).1 := by
    cases ms with
    | nil => exact absurd rfl hne
    | cons m rest => rfl
  have hfc := firstCpuInd_eq ms N (P * N) hlen0 hcpu (le_of_eq hlen)
  obtain ⟨s, hfold, hrel, hidx⟩ := monoWalk_sim ms N (ms.get ⟨0, hlen0⟩).1 hcpu
    hfirst (P * N) (le_of_eq hlen) ms.length (le_refl _)
  rw [List.take_length] at hrel
  have hmono_iff := specWalk_mono_iff N (ms.get ⟨0, hlen0⟩).1 ms specInit rfl
  rw [show specInit.prev = 0 from rfl] at hmono_iff
  rw [chain_zero_cons] at hmono_iff
  have hres : wtmlib_IsProbeSequenceMonotonic N P (probesOf ms) =
      (if s.mono = true ∧ s.loops < WTMLIB_FULL_LOOP_COUNT_THRESHOLD then
        Except.error 3 else Except.ok s.mono) := by
    rw [wtmlib_IsProbeSequenceMonotonic, if_neg (by rw [hgate]; decide), hfc,
      show List.range (P * N) = List.range ms.length from by rw [hlen], hfold]
  rw [hres, specWalk, hhead]
  set u := ms.foldl (specStep N (ms.get ⟨0, hlen0⟩).1) specInit with hu
  constructor
  · by_cases hcond : s.mono = true ∧ s.loops < WTMLIB_FULL_LOOP_COUNT_THRESHOLD
    · rw [if_pos hcond]
      constructor
      · intro _
        refine ⟨hmono_iff.mp (hrel.mono_eq ▸ hcond.1), ?_⟩
        rw [← hrel.loops_eq]
        exact hcond.2
      · intro _; rfl
    · rw [if_neg hcond]
      constructor
      · intro h; exact Except.noConfusion h
      · intro ⟨hchain, hloops⟩
        exfalso
        apply hcond
        refine ⟨hrel.mono_eq ▸ hmono_iff.mpr hchain, ?_⟩
        rw [hrel.loops_eq]
        exact hloops
  · intro hnc
    have hum : u.mono = false := by
      rcases hb : u.mono with _ | _
      · rfl
      · exact absurd (hmono_iff.mp hb) hnc
    have hsm : s.mono = false := hrel.mono_eq ▸ hum
    rw [if_neg (fun h => by rw [hsm] at h; exact absurd h.1 (by decide)), hsm]

/-- Witness for C6_monotonicity_poor_stat: two CPUs, two probes each, a
monotonic stream completing one full loop (poor statistics), checked
together with the hypotheses at the concrete input. -/
theorem C6_monotonicity_poor_stat_witness :
    (wtmlib_IsProbeSequenceMonotonic 2 2
        (probesOf [(0, 5), (1, 7), (0, 6), (1, 9)]) = .error 3 ↔
      (List.Chain' (fun a b => a ≤ b)
          ([(0, 5), (1, 7), (0, 6), (1, 9)].map Prod.snd) ∧
        (specWalk [(0, 5), (1, 7), (0, 6), (1, 9)] 2
            ([(0, 5), (1, 7), (0, 6), (1, 9)].headD (0, 0)).1).loops <
          WTMLIB_FULL_LOOP_COUNT_THRESHOLD)) ∧
    (¬ List.Chain' (fun a b => a ≤ b)
        ([(0, 5), (1, 7), (0, 6), (1, 9)].map Prod.snd) →
      wtmlib_IsProbeSequenceMonotonic 2 2
        (probesOf [(0, 5), (1, 7), (0, 6), (1, 9)]) = .ok false) :=
  C6_monotonicity_poor_stat [(0, 5), (1, 7), (0, 6), (1, 9)] 2 2
    (by decide) (by decide) (by decide) (by decide)

/-! ### C5: wtmlib_CalcTSCDeltaRangeCOP (wtmlib.c:1880-2048)

The two probe arrays (index 0 = base CPU, index 1 = given CPU) hold
(seq_num, tsc_val) pairs; a valid input is derived from a merged two-CPU
stream ms by probesOf as for C6. -/

/-- WTMLIB_TSC_DELTA_RANGE_COUNT_THRESHOLD (wtmlib_config.h). -/
def WTMLIB_TSC_DELTA_RANGE_COUNT_THRESHOLD : Nat := 10

/-- Number of iterations of the inner cursor scan at wtmlib.c:1951-1956:
leading entries of the remaining given-CPU probes whose seq_num is below
the current base probe's seq_num. -/
def countWhileLt : List (Nat × Nat) → Nat → Nat
  | [], _ => 0
  | q :: rest, tgt => if q.1 < tgt then countWhileLt rest tgt + 1 else 0

/-- Number of iterations of the skip loop at wtmlib.c:1921-1927: leading
given-CPU probes whose seq_num equals their index. -/
def countSeqPrefix : List (Nat × Nat) → Nat → Nat
  | [], _ => 0
  | q :: rest, i => if q.1 = i then countSeqPrefix rest (i + 1) + 1 else 0

/-- The mutable state of the outer loop at wtmlib.c:1933: cursors ig and
seq_num, the running range, and num_ranges. -/
structure COPSt where
  ig : Nat
  seqn : Nat
  d_min : Int
  d_max : Int
  num_ranges : Nat

/-- One iteration of the outer loop (wtmlib.c:1933-2026) at base index ib.
All three mid-loop inconsistency returns are .error (); u64 subtractions
wrap and the int64_t bounds are two's-complement reinterpretations. -/
def copStep (p0 p1 : List (Nat × Nat)) (st : Except Unit COPSt) (ib : Nat) :
    Except Unit COPSt :=
  match st with
  | .error e => .error e
  | .ok s =>
    if (p0.getD ib (0, 0)).1 == s.seqn + 1 then
      .ok { s with seqn := s.seqn + 1 }
    else
      let tsc_base_prev := (p0.getD (ib - 1) (0, 0)).2
      let tsc_base_curr := (p0.getD ib (0, 0)).2
      let k := countWhileLt (p1.drop s.ig) (p0.getD ib (0, 0)).1
      let tsc_given_min := (p1.getD s.ig (0, 0)).2
      let tsc_given_max := (p1.getD (s.ig + k - 1) (0, 0)).2
      if ABS_DIFF tsc_given_min tsc_base_prev > I64_MAX ∨
          ABS_DIFF tsc_given_max tsc_base_curr > I64_MAX then .error ()
      else if u64sub tsc_base_curr tsc_base_prev <
          u64sub tsc_given_max tsc_given_min then .error ()
      else
        let bound_min := toI64 (u64sub tsc_given_max tsc_base_curr)
        let bound_max := toI64 (u64sub tsc_given_min tsc_base_prev)
        if bound_min > s.d_max ∨ bound_max < s.d_min then .error ()
        else
          .ok { ig := s.ig + k, seqn := s.seqn + k + 1,
                d_min := max bound_min s.d_min, d_max := min bound_max s.d_max,
                num_ranges := s.num_ranges + 1 }

/-- wtmlib_CheckTSCProbesConsistency for the two probe arrays
(wtmlib.c:1898). -/
def copGate1 (P : Nat) (p0 p1 : List (Nat × Nat)) : Bool :=
  ((p0.getD 0 (0, 0)).2 != (p0.getD (P - 1) (0, 0)).2) &&
  ((p1.getD 0 (0, 0)).2 != (p1.getD (P - 1) (0, 0)).2)

/-- Within-CPU monotonicity pre-scan (wtmlib.c:1905-1917). -/
def copGate2 (P : Nat) (p0 p1 : List (Nat × Nat)) : Bool :=
  (List.range (P - 1)).all (fun i =>
    !(decide ((p0.getD (i + 1) (0, 0)).2 < (p0.getD i (0, 0)).2) ||
      decide ((p1.getD (i + 1) (0, 0)).2 < (p1.getD i (0, 0)).2)))

/-- wtmlib_CalcTSCDeltaRangeCOP (wtmlib.c:1880-2048).  Error codes:
1 = WTMLIB_RET_TSC_INCONSISTENCY (all consistency returns),
3 = WTMLIB_RET_POOR_STAT; .ok carries (d_min, d_max). -/
def wtmlib_CalcTSCDeltaRangeCOP (P : Nat) (p0 p1 : List (Nat × Nat)) :
    Except Nat (Int × Int) :=
  if copGate1 P p0 p1 = false then .error 1
  else if copGate2 P p0 p1 = false then .error 1
  else
    match (List.range' 1 (P - 1)).foldl (copStep p0 p1)
        (.ok ⟨if (p1.getD 0 (0, 0)).1 == 0 then countSeqPrefix p1 0 else 0,
              if (p1.getD 0 (0, 0)).1 == 0 then countSeqPrefix p1 0 else 0,
              I64_MIN_Z, I64_MAX_Z, 0⟩) with
    | .error _ => .error 1
    | .ok s =>
      if s.num_ranges < WTMLIB_TSC_DELTA_RANGE_COUNT_THRESHOLD then .error 3
      else .ok (s.d_min, s.d_max)

/-- Spec-side count of enclosing pairs: adjacent base probes whose
sequence numbers differ by more than one enclose at least one given-CPU
probe. -/
def specPairsUpTo (p0 : List (Nat × Nat)) (n : Nat) : Nat :=
  (List.range n).countP
    (fun i => decide ((p0.getD i (0, 0)).1 + 1 < (p0.getD (i + 1) (0, 0)).1))

theorem probesFrom_shift (c : Nat) :
    ∀ (ms : List (Nat × Nat)) (k : Nat),
      probesFrom (k + 1) ms c = (probesFrom k ms c).map (fun q => (q.1 + 1, q.2)) := by
  intro ms
  induction ms with
  | nil => intro k; rfl
  | cons p rest ih =>
    intro k
    rw [probesFrom, probesFrom]
    by_cases hp : p.1 = c
    · rw [if_pos hp, if_pos hp, List.map_cons, ih (k + 1)]
    · rw [if_neg hp, if_neg hp, ih (k + 1)]

theorem probesFrom_sorted (c : Nat) :
    ∀ (ms : List (Nat × Nat)) (k : Nat),
      List.Pairwise (fun a b : Nat × Nat => a.1 < b.1) (probesFrom k ms c) := by
  intro ms
  induction ms with
  | nil => intro k; rw [probesFrom]; exact List.Pairwise.nil
  | cons p rest ih =>
    intro k
    rw [probesFrom]
    by_cases hp : p.1 = c
    · rw [if_pos hp]
      refine List.pairwise_cons.mpr ⟨?_, ih (k + 1)⟩
      intro q hq
      have := probesFrom_seq_ge c rest (k + 1) q hq
      show k < q.1
      omega
    · rw [if_neg hp]
      exact ih (k + 1)

theorem probesFrom_seq_lt (c : Nat) :
    ∀ (ms : List (Nat × Nat)) (k : Nat) (q : Nat × Nat),
      q ∈ probesFrom k ms c → q.1 < k + ms.length := by
  intro ms
  induction ms with
  | nil =>
    intro k q hq
    rw [probesFrom] at hq
    simp at hq
  | cons p rest ih =>
    intro k q hq
    rw [probesFrom] at hq
    rw [List.length_cons]
    by_cases hp : p.1 = c
    · rw [if_pos hp] at hq
      rcases List.mem_cons.mp hq with h1 | h1
      · subst h1; omega
      · have := ih (k + 1) q h1; omega
    · rw [if_neg hp] at hq
      have := ih (k + 1) q hq; omega

theorem probesFrom_pos (c : Nat) :
    ∀ (ms : List (Nat × Nat)) (k : Nat) (q : Nat × Nat),
      q ∈ probesFrom k ms c →
        ∃ h : q.1 - k < ms.length, (ms.get ⟨q.1 - k, h⟩).1 = c := by
  intro ms
  induction ms with
  | nil =>
    intro k q hq
    rw [probesFrom] at hq
    simp at hq
  | cons p rest ih =>
    intro k q hq
    rw [probesFrom] at hq
    by_cases hp : p.1 = c
    · rw [if_pos hp] at hq
      rcases List.mem_cons.mp hq with h1 | h1
      · subst h1
        refine ⟨by simp, ?_⟩
        simpa using hp
      · have hge := probesFrom_seq_ge c rest (k + 1) q h1
        obtain ⟨h2, h3⟩ := ih (k + 1) q h1
        have hqk : q.1 - k = (q.1 - (k + 1)) + 1 := by omega
        refine ⟨by rw [hqk, List.length_cons]; omega, ?_⟩
        have : (p :: rest).get ⟨(q.1 - (k + 1)) + 1, by rw [List.length_cons]; omega⟩ =
            rest.get ⟨q.1 - (k + 1), h2⟩ := rfl
        rw [show (⟨q.1 - k, by rw [hqk, List.length_cons]; omega⟩ :
            Fin (p :: rest).length) = ⟨(q.1 - (k + 1)) + 1, by
              rw [List.length_cons]; omega⟩ from by
          apply Fin.ext
          exact hqk]
        rw [this, h3]
    · rw [if_neg hp] at hq
      have hge := probesFrom_seq_ge c rest (k + 1) q hq
      obtain ⟨h2, h3⟩ := ih (k + 1) q hq
      have hqk : q.1 - k = (q.1 - (k + 1)) + 1 := by omega
      refine ⟨by rw [hqk, List.length_cons]; omega, ?_⟩
      have : (p :: rest).get ⟨(q.1 - (k + 1)) + 1, by rw [List.length_cons]; omega⟩ =
          rest.get ⟨q.1 - (k + 1), h2⟩ := rfl
      rw [show (⟨q.1 - k, by rw [hqk, List.length_cons]; omega⟩ :
          Fin (p :: rest).length) = ⟨(q.1 - (k + 1)) + 1, by
            rw [List.length_cons]; omega⟩ from by
        apply Fin.ext
        exact hqk]
      rw [this, h3]

/-- Entries with sequence number below X. -/
def cntLt (l : List (Nat × Nat)) (X : Nat) : Nat :=
  l.countP (fun q => decide (q.1 < X))

/-- Leading probes of the stream on cpu_ind c. -/
def leadC (c : Nat) : List (Nat × Nat) → Nat
  | [] => 0
  | p :: rest => if p.1 = c then leadC c rest + 1 else 0

theorem sorted_cntLt :
    ∀ (l : List (Nat × Nat)),
      List.Pairwise (fun a b : Nat × Nat => a.1 < b.1) l →
      ∀ (j : Nat) (h : j < l.length), cntLt l (l.get ⟨j, h⟩).1 = j := by
  intro l
  induction l with
  | nil => intro _ j h; simp at h
  | cons q rest ih =>
    intro hs j h
    obtain ⟨hhead, htail⟩ := List.pairwise_cons.mp hs
    cases j with
    | zero =>
      rw [cntLt, List.countP_cons, show (q :: rest).get ⟨0, h⟩ = q from rfl]
      have h1 : rest.countP (fun p => decide (p.1 < q.1)) = 0 :=
        List.countP_eq_zero.mpr (by
          intro a ha
          have := hhead a ha
          simp
          omega)
      rw [h1, if_neg (by simp)]
    | succ j =>
      have hjl : j < rest.length := by rw [List.length_cons] at h; omega
      rw [show (q :: rest).get ⟨j + 1, h⟩ = rest.get ⟨j, hjl⟩ from rfl]
      rw [cntLt, List.countP_cons]
      have hq := hhead _ (List.get_mem rest j hjl)
      rw [if_pos (by simpa using hq)]
      have := ih htail j hjl
      rw [cntLt] at this
      rw [this]

theorem sorted_cntLt_succ :
    ∀ (l : List (Nat × Nat)),
      List.Pairwise (fun a b : Nat × Nat => a.1 < b.1) l →
      ∀ (j : Nat) (h : j < l.length), cntLt l ((l.get ⟨j, h⟩).1 + 1) = j + 1 := by
  intro l
  induction l with
  | nil => intro _ j h; simp at h
  | cons q rest ih =>
    intro hs j h
    obtain ⟨hhead, htail⟩ := List.pairwise_cons.mp hs
    cases j with
    | zero =>
      rw [cntLt, List.countP_cons, show (q :: rest).get ⟨0, h⟩ = q from rfl]
      have h1 : rest.countP (fun p => decide (p.1 < q.1 + 1)) = 0 :=
        List.countP_eq_zero.mpr (by
          intro a ha
          have := hhead a ha
          simp
          omega)
      rw [h1, if_pos (by simp)]
    | succ j =>
      have hjl : j < rest.length := by rw [List.length_cons] at h; omega
      rw [show (q :: rest).get ⟨j + 1, h⟩ = rest.get ⟨j, hjl⟩ from rfl]
      rw [cntLt, List.countP_cons]
      have hq := hhead _ (List.get_mem rest j hjl)
      rw [if_pos (by simp only [decide_eq_true_eq]; omega)]
      have := ih htail j hjl
      rw [cntLt] at this
      rw [this]

theorem countWhileLt_eq_cntLt :
    ∀ (l : List (Nat × Nat)),
      List.Pairwise (fun a b : Nat × Nat => a.1 < b.1) l →
      ∀ tgt, countWhileLt l tgt = cntLt l tgt := by
  intro l
  induction l with
  | nil => intro _ tgt; rfl
  | cons q rest ih =>
    intro hs tgt
    obtain ⟨hhead, htail⟩ := List.pairwise_cons.mp hs
    rw [countWhileLt, cntLt, List.countP_cons]
    by_cases hq : q.1 < tgt
    · rw [if_pos hq, ih htail tgt, cntLt, if_pos (by simp; omega)]
    · rw [if_neg hq]
      have h0 : rest.countP (fun p => decide (p.1 < tgt)) = 0 :=
        List.countP_eq_zero.mpr (by
          intro a ha
          have := hhead a ha
          simp
          omega)
      rw [h0, if_neg (by simp; omega)]

theorem cntLt_drop :
    ∀ (l : List (Nat × Nat)),
      List.Pairwise (fun a b : Nat × Nat => a.1 < b.1) l →
      ∀ (y tgt : Nat), y ≤ tgt →
        cntLt (l.drop (cntLt l y)) tgt + cntLt l y = cntLt l tgt := by
  intro l
  induction l with
  | nil => intro _ y tgt _; rfl
  | cons q rest ih =>
    intro hs y tgt hyt
    obtain ⟨hhead, htail⟩ := List.pairwise_cons.mp hs
    by_cases hqy : q.1 < y
    · have hcy : cntLt (q :: rest) y = cntLt rest y + 1 := by
        rw [cntLt, List.countP_cons, if_pos (by simp; omega), cntLt]
      have hct : cntLt (q :: rest) tgt = cntLt rest tgt + 1 := by
        rw [cntLt, List.countP_cons, if_pos (by simp; omega), cntLt]
      rw [hcy, hct, List.drop_succ_cons]
      have := ih htail y tgt hyt
      omega
    · have h0 : cntLt rest y = 0 := by
        rw [cntLt]
        exact List.countP_eq_zero.mpr (by
          intro a ha
          have := hhead a ha
          simp
          omega)
      have hcy : cntLt (q :: rest) y = 0 := by
        rw [cntLt, List.countP_cons, if_neg (by simp; omega)]
        rw [cntLt] at h0
        omega
      rw [hcy, List.drop_zero]
      omega

theorem cntLt_succ_of_none (l : List (Nat × Nat)) (X : Nat)
    (h : ∀ q ∈ l, q.1 ≠ X) : cntLt l (X + 1) = cntLt l X := by
  induction l with
  | nil => rfl
  | cons q rest ih =>
    have hq := h q (List.mem_cons_self q rest)
    have ih2 := ih (fun a ha => h a (List.mem_cons_of_mem q ha))
    rw [cntLt, List.countP_cons, cntLt, List.countP_cons]
    rw [cntLt, cntLt] at ih2
    by_cases h1 : q.1 < X
    · rw [if_pos (by simp; omega), if_pos (by simp; omega)]
      omega
    · rw [if_neg (by simp; omega), if_neg (by simp; omega)]
      omega

theorem probesOf_cntLt (ms : List (Nat × Nat)) (c X : Nat) (hX : X ≤ ms.length) :
    cntLt (probesOf ms c) X = countC c (ms.take X) := by
  rw [probesOf, probesFrom_split c X ms 0, cntLt, List.countP_append]
  have h1 : (probesFrom 0 (ms.take X) c).countP (fun q => decide (q.1 < X)) =
      (probesFrom 0 (ms.take X) c).length :=
    List.countP_eq_length.mpr (by
      intro q hq
      have hlt := probesFrom_seq_lt c (ms.take X) 0 q hq
      rw [List.length_take] at hlt
      simp
      omega)
  have h2 : (probesFrom (0 + X) (ms.drop X) c).countP
      (fun q => decide (q.1 < X)) = 0 :=
    List.countP_eq_zero.mpr (by
      intro q hq
      have := probesFrom_seq_ge c (ms.drop X) (0 + X) q hq
      simp
      omega)
  rw [h1, h2, probesFrom_length]
  omega

theorem countC_sum (ms : List (Nat × Nat))
    (hcpu : ∀ p ∈ ms, p.1 = 0 ∨ p.1 = 1) :
    countC 0 ms + countC 1 ms = ms.length := by
  induction ms with
  | nil => rfl
  | cons p rest ih =>
    have h := hcpu p (List.mem_cons_self p rest)
    have ih2 := ih (fun q hq => hcpu q (List.mem_cons_of_mem p hq))
    rw [countC, countC, List.countP_cons, List.countP_cons, List.length_cons]
    rw [countC, countC] at ih2
    rcases h with h | h
    · rw [if_pos (by simp [h]), if_neg (by simp [h])]
      omega
    · rw [if_neg (by simp [h]), if_pos (by simp [h])]
      omega

theorem countSeqPrefix_probesFrom (c : Nat) :
    ∀ (ms : List (Nat × Nat)) (k : Nat),
      countSeqPrefix (probesFrom k ms c) k = leadC c ms := by
  intro ms
  induction ms with
  | nil => intro k; rfl
  | cons p rest ih =>
    intro k
    rw [probesFrom, leadC]
    by_cases hp : p.1 = c
    · rw [if_pos hp, if_pos hp, countSeqPrefix, if_pos rfl, ih (k + 1)]
    · rw [if_neg hp, if_neg hp]
      cases hpf : probesFrom (k + 1) rest c with
      | nil => rfl
      | cons q qs =>
        rw [countSeqPrefix]
        have := probesFrom_seq_ge c rest (k + 1) q
          (by rw [hpf]; exact List.mem_cons_self q qs)
        rw [if_neg (by omega)]

theorem probesOf_base_head :
    ∀ ms : List (Nat × Nat), (∀ p ∈ ms, p.1 = 0 ∨ p.1 = 1) →
      ∀ h : 0 < (probesOf ms 0).length,
        ((probesOf ms 0).get ⟨0, h⟩).1 = leadC 1 ms := by
  intro ms
  induction ms with
  | nil =>
    intro _ h
    rw [probesOf, probesFrom] at h
    simp at h
  | cons p rest ih =>
    intro hcpu h
    rcases hcpu p (List.mem_cons_self p rest) with h0 | h1
    · have e1 : probesOf (p :: rest) 0 = (0, p.2) :: probesFrom (0 + 1) rest 0 := by
        rw [probesOf, probesFrom, if_pos h0]
      rw [show ((probesOf (p :: rest) 0).get ⟨0, h⟩) =
        ((0, p.2) : Nat × Nat) from by rw [List.get_of_eq e1]; rfl]
      rw [leadC, if_neg (by omega)]
    · have e1 : probesOf (p :: rest) 0 =
          (probesOf rest 0).map (fun q => (q.1 + 1, q.2)) := by
        rw [probesOf, probesFrom, if_neg (by omega), probesFrom_shift, probesOf]
      have hlen2 : 0 < (probesOf rest 0).length := by
        have := h
        rw [e1, List.length_map] at this
        exact this
      cases hpf : probesOf rest 0 with
      | nil => rw [hpf] at hlen2; simp at hlen2
      | cons q qs =>
        have e2 : probesOf (p :: rest) 0 = (q.1 + 1, q.2) :: qs.map (fun r => (r.1 + 1, r.2)) := by
          rw [e1, hpf, List.map_cons]
        rw [show ((probesOf (p :: rest) 0).get ⟨0, h⟩) = (q.1 + 1, q.2) from by
          rw [List.get_of_eq e2]; rfl]
        rw [leadC, if_pos h1]
        have := ih (fun r hr => hcpu r (List.mem_cons_of_mem p hr)) hlen2
        rw [show ((probesOf rest 0).get ⟨0, hlen2⟩) = q from by
          rw [List.get_of_eq hpf]; rfl] at this
        omega

theorem skip_prefix_eq (ms : List (Nat × Nat))
    (hcpu : ∀ p ∈ ms, p.1 = 0 ∨ p.1 = 1) :
    (if ((probesOf ms 1).getD 0 (0, 0)).1 == 0 then
      countSeqPrefix (probesOf ms 1) 0 else 0) = leadC 1 ms := by
  cases ms with
  | nil => rfl
  | cons p rest =>
    rcases hcpu p (List.mem_cons_self p rest) with h0 | h1
    · have e1 : probesOf (p :: rest) 1 = probesFrom (0 + 1) rest 1 := by
        rw [probesOf, probesFrom, if_neg (show ¬ p.1 = 1 from by omega)]
      rw [e1, leadC, if_neg (show ¬ p.1 = 1 from by omega)]
      cases hpf : probesFrom (0 + 1) rest 1 with
      | nil => rfl
      | cons q qs =>
        have := probesFrom_seq_ge 1 rest (0 + 1) q
          (by rw [hpf]; exact List.mem_cons_self q qs)
        rw [if_neg (by rw [List.getD_cons_zero]; simp; omega)]
    · have e1 : probesOf (p :: rest) 1 = (0, p.2) :: probesFrom (0 + 1) rest 1 := by
        rw [probesOf, probesFrom, if_pos h1]
      rw [e1, leadC, if_pos h1]
      rw [if_pos (by rw [List.getD_cons_zero]; rfl)]
      rw [countSeqPrefix, if_pos rfl]
      rw [countSeqPrefix_probesFrom 1 rest (0 + 1)]

theorem specPairsUpTo_succ (p0 : List (Nat × Nat)) (n : Nat) :
    specPairsUpTo p0 (n + 1) = specPairsUpTo p0 n +
      (if (p0.getD n (0, 0)).1 + 1 < (p0.getD (n + 1) (0, 0)).1 then 1 else 0) := by
  rw [specPairsUpTo, specPairsUpTo, List.range_succ, List.countP_append]
  congr 1
  rw [List.countP_cons, List.countP_nil]
  by_cases h : (p0.getD n (0, 0)).1 + 1 < (p0.getD (n + 1) (0, 0)).1
  · rw [if_pos (by simpa using h), if_pos h]
  · rw [if_neg (by simpa using h), if_neg h]

theorem copStep_cases (p0 p1 : List (Nat × Nat)) (s : COPSt) (ib : Nat) :
    ((p0.getD ib (0, 0)).1 = s.seqn + 1 ∧
      copStep p0 p1 (.ok s) ib = .ok { s with seqn := s.seqn + 1 }) ∨
    ((p0.getD ib (0, 0)).1 ≠ s.seqn + 1 ∧
      (copStep p0 p1 (.ok s) ib = .error () ∨
       ∃ dmin dmax,
         copStep p0 p1 (.ok s) ib = .ok
           ⟨s.ig + countWhileLt (p1.drop s.ig) (p0.getD ib (0, 0)).1,
            s.seqn + countWhileLt (p1.drop s.ig) (p0.getD ib (0, 0)).1 + 1,
            dmin, dmax, s.num_ranges + 1⟩)) := by
  by_cases hb : (p0.getD ib (0, 0)).1 = s.seqn + 1
  · left
    refine ⟨hb, ?_⟩
    simp only [copStep]
    rw [if_pos (by simpa using hb)]
  · right
    refine ⟨hb, ?_⟩
    simp only [copStep]
    rw [if_neg (by simpa using hb)]
    split
    · left; rfl
    · split
      · left; rfl
      · split
        · left; rfl
        · right; exact ⟨_, _, rfl⟩

theorem copLoop_sim (ms : List (Nat × Nat)) (P : Nat)
    (hcpu : ∀ p ∈ ms, p.1 = 0 ∨ p.1 = 1)
    (hB : countC 0 ms = P) (hG : countC 1 ms = P) (hP : 1 ≤ P) :
    ∀ n, n ≤ P - 1 →
      ((List.range' 1 n).foldl (copStep (probesOf ms 0) (probesOf ms 1))
          (.ok ⟨leadC 1 ms, leadC 1 ms, I64_MIN_Z, I64_MAX_Z, 0⟩) = .error ()) ∨
      (∃ s : COPSt,
        (List.range' 1 n).foldl (copStep (probesOf ms 0) (probesOf ms 1))
          (.ok ⟨leadC 1 ms, leadC 1 ms, I64_MIN_Z, I64_MAX_Z, 0⟩) = .ok s ∧
        ∃ hn : n < (probesOf ms 0).length,
          s.seqn = ((probesOf ms 0).get ⟨n, hn⟩).1 ∧
          s.ig = cntLt (probesOf ms 1) (s.seqn + 1) ∧
          s.num_ranges = specPairsUpTo (probesOf ms 0) n) := by
  have hlenB : (probesOf ms 0).length = P := by
    rw [probesOf, probesFrom_length]
    exact hB
  have hsortB : List.Pairwise (fun a b : Nat × Nat => a.1 < b.1) (probesOf ms 0) :=
    probesFrom_sorted 0 ms 0
  have hsortG : List.Pairwise (fun a b : Nat × Nat => a.1 < b.1) (probesOf ms 1) :=
    probesFrom_sorted 1 ms 0
  have hposB : ∀ q ∈ probesOf ms 0, q.1 < ms.length := by
    intro q hq
    have := probesFrom_seq_lt 0 ms 0 q hq
    omega
  have hdisjB : ∀ r ∈ probesOf ms 0, ∀ q ∈ probesOf ms 1, q.1 ≠ r.1 := by
    intro r hr q hq heq
    obtain ⟨h1, h2⟩ := probesFrom_pos 0 ms 0 r hr
    obtain ⟨h3, h4⟩ := probesFrom_pos 1 ms 0 q hq
    rw [show (⟨q.1 - 0, h3⟩ : Fin ms.length) = ⟨r.1 - 0, h1⟩ from
      Fin.ext (show q.1 - 0 = r.1 - 0 from by omega)] at h4
    rw [h2] at h4
    omega
  have hA3 : ∀ X, X ≤ ms.length →
      cntLt (probesOf ms 0) X + cntLt (probesOf ms 1) X = X := by
    intro X hX
    rw [probesOf_cntLt ms 0 X hX, probesOf_cntLt ms 1 X hX]
    have := countC_sum (ms.take X) (fun p hp => hcpu p (List.mem_of_mem_take hp))
    rw [List.length_take] at this
    rw [countC, countC] at this ⊢
    omega
  intro n
  induction n with
  | zero =>
    intro _
    right
    have h0 : 0 < (probesOf ms 0).length := by omega
    have hb0 := probesOf_base_head ms hcpu h0
    refine ⟨⟨leadC 1 ms, leadC 1 ms, I64_MIN_Z, I64_MAX_Z, 0⟩, rfl, h0, ?_, ?_, rfl⟩
    · exact hb0.symm
    · show leadC 1 ms = cntLt (probesOf ms 1) (leadC 1 ms + 1)
      have hy := sorted_cntLt_succ _ hsortB 0 h0
      have hXlen : ((probesOf ms 0).get ⟨0, h0⟩).1 + 1 ≤ ms.length :=
        hposB _ (List.get_mem _ 0 h0)
      have := hA3 (((probesOf ms 0).get ⟨0, h0⟩).1 + 1) hXlen
      rw [← hb0]
      omega
  | succ n ih =>
    intro hn1
    have hrc : List.range' 1 (n + 1) = List.range' 1 n ++ [n + 1] := by
      rw [List.range'_concat]
      congr 1
      rw [show 1 + 1 * n = n + 1 from by ring]
    rcases ih (by omega) with herr | ⟨s, hfold, hn, hseq, hig, hnr⟩
    · left
      rw [hrc, List.foldl_append, herr]
      rfl
    · have hib : n + 1 < (probesOf ms 0).length := by omega
      have hmono : ((probesOf ms 0).get ⟨n, hn⟩).1 <
          ((probesOf ms 0).get ⟨n + 1, hib⟩).1 :=
        List.pairwise_iff_get.mp hsortB ⟨n, hn⟩ ⟨n + 1, hib⟩ (by
          show n < n + 1
          omega)
      have hgdn : (probesOf ms 0).getD n (0, 0) = (probesOf ms 0).get ⟨n, hn⟩ := by
        rw [List.getD_eq_getElem _ _ hn]
        rfl
      have hgdn1 : (probesOf ms 0).getD (n + 1) (0, 0) =
          (probesOf ms 0).get ⟨n + 1, hib⟩ := by
        rw [List.getD_eq_getElem _ _ hib]
        rfl
      have hdisj1 : ∀ q ∈ probesOf ms 1,
          q.1 ≠ ((probesOf ms 0).get ⟨n + 1, hib⟩).1 := by
        intro q hq
        exact hdisjB _ (List.get_mem _ (n + 1) hib) q hq
      rcases copStep_cases (probesOf ms 0) (probesOf ms 1) s (n + 1) with
        ⟨hbeq, hstep⟩ | ⟨hbeq, hsub⟩
      · right
        rw [hgdn1] at hbeq
        refine ⟨{ s with seqn := s.seqn + 1 }, ?_, hib, ?_, ?_, ?_⟩
        · rw [hrc, List.foldl_append, hfold]
          exact hstep
        · show s.seqn + 1 = _
          omega
        · show s.ig = cntLt (probesOf ms 1) (s.seqn + 1 + 1)
          have hnone : ∀ q ∈ probesOf ms 1, q.1 ≠ s.seqn + 1 := by
            intro q hq
            have := hdisj1 q hq
            omega
          rw [cntLt_succ_of_none _ _ hnone]
          exact hig
        · show s.num_ranges = specPairsUpTo (probesOf ms 0) (n + 1)
          rw [specPairsUpTo_succ,
            if_neg (show ¬ ((probesOf ms 0).getD n (0, 0)).1 + 1 <
              ((probesOf ms 0).getD (n + 1) (0, 0)).1 from by
                rw [hgdn, hgdn1]
                omega)]
          omega
      · rw [hgdn1] at hbeq
        have hgap : ((probesOf ms 0).get ⟨n, hn⟩).1 + 1 <
            ((probesOf ms 0).get ⟨n + 1, hib⟩).1 := by omega
        rcases hsub with herr2 | ⟨dmin, dmax, hstep⟩
        · left
          rw [hrc, List.foldl_append, hfold]
          exact herr2
        · right
          have hk : countWhileLt ((probesOf ms 1).drop s.ig)
                ((probesOf ms 0).getD (n + 1) (0, 0)).1 + s.ig =
              cntLt (probesOf ms 1) ((probesOf ms 0).get ⟨n + 1, hib⟩).1 := by
            rw [hgdn1,
              countWhileLt_eq_cntLt _ (hsortG.sublist (List.drop_sublist _ _)) _,
              hig, hseq]
            exact cntLt_drop (probesOf ms 1) hsortG
              (((probesOf ms 0).get ⟨n, hn⟩).1 + 1)
              ((probesOf ms 0).get ⟨n + 1, hib⟩).1 (by omega)
          have hA4t : cntLt (probesOf ms 0) ((probesOf ms 0).get ⟨n + 1, hib⟩).1 =
              n + 1 := sorted_cntLt _ hsortB (n + 1) hib
          have hA4y : cntLt (probesOf ms 0) (((probesOf ms 0).get ⟨n, hn⟩).1 + 1) =
              n + 1 := sorted_cntLt_succ _ hsortB n hn
          have hGt := hA3 ((probesOf ms 0).get ⟨n + 1, hib⟩).1
            (le_of_lt (hposB _ (List.get_mem _ (n + 1) hib)))
          have hGy := hA3 (((probesOf ms 0).get ⟨n, hn⟩).1 + 1)
            (hposB _ (List.get_mem _ n hn))
          have hseqn2 : s.seqn + countWhileLt ((probesOf ms 1).drop s.ig)
                ((probesOf ms 0).getD (n + 1) (0, 0)).1 + 1 =
              ((probesOf ms 0).get ⟨n + 1, hib⟩).1 := by
            rw [hig, hseq] at hk ⊢
            omega
          refine ⟨⟨s.ig + countWhileLt ((probesOf ms 1).drop s.ig)
              ((probesOf ms 0).getD (n + 1) (0, 0)).1,
            s.seqn + countWhileLt ((probesOf ms 1).drop s.ig)
              ((probesOf ms 0).getD (n + 1) (0, 0)).1 + 1,
            dmin, dmax, s.num_ranges + 1⟩, ?_, hib, ?_, ?_, ?_⟩
          · rw [hrc, List.foldl_append, hfold]
            exact hstep
          · show s.seqn + countWhileLt ((probesOf ms 1).drop s.ig)
                ((probesOf ms 0).getD (n + 1) (0, 0)).1 + 1 = _
            exact hseqn2
          · show s.ig + countWhileLt ((probesOf ms 1).drop s.ig)
                ((probesOf ms 0).getD (n + 1) (0, 0)).1 =
              cntLt (probesOf ms 1) (s.seqn + countWhileLt ((probesOf ms 1).drop s.ig)
                ((probesOf ms 0).getD (n + 1) (0, 0)).1 + 1 + 1)
            rw [hseqn2, cntLt_succ_of_none _ _ hdisj1]
            omega
          · show s.num_ranges + 1 = specPairsUpTo (probesOf ms 0) (n + 1)
            rw [specPairsUpTo_succ,
              if_pos (show ((probesOf ms 0).getD n (0, 0)).1 + 1 <
                ((probesOf ms 0).getD (n + 1) (0, 0)).1 from by
                  rw [hgdn, hgdn1]
                  omega)]
            omega

/-- C5: for a valid two-CPU CAS probe stream (merged sequence ms over
cpu_inds 0 = base and 1 = given, P probes on each CPU) on which
wtmlib_CalcTSCDeltaRangeCOP raises no TSC-inconsistency (the first-vs-last
gate, the within-CPU monotonicity pre-scan and the three mid-loop
consistency exits all pass), the function returns the distinct
poor-statistics failure (error 3) exactly when the number of enclosing
pairs — adjacent base probes whose sequence numbers differ by more than
one, hence enclosing at least one given-CPU probe — is below
WTMLIB_TSC_DELTA_RANGE_COUNT_THRESHOLD, and at or above the threshold it
succeeds. -/
theorem C5_delta_range_cop_poor_stat (ms : List (Nat × Nat)) (P : Nat)
    (hcpu : ∀ p ∈ ms, p.1 = 0 ∨ p.1 = 1)
    (hB : countC 0 ms = P) (hG : countC 1 ms = P) (hP : 1 ≤ P)
    (hnoinc : wtmlib_CalcTSCDeltaRangeCOP P (probesOf ms 0) (probesOf ms 1) ≠
      .error 1) :
    (wtmlib_CalcTSCDeltaRangeCOP P (probesOf ms 0) (probesOf ms 1) = .error 3 ↔
      specPairsUpTo (probesOf ms 0) (P - 1) <
        WTMLIB_TSC_DELTA_RANGE_COUNT_THRESHOLD) ∧
    (WTMLIB_TSC_DELTA_RANGE_COUNT_THRESHOLD ≤
        specPairsUpTo (probesOf ms 0) (P - 1) →
      ∃ r, wtmlib_CalcTSCDeltaRangeCOP P (probesOf ms 0) (probesOf ms 1) = .ok r) := by
  have hskip : (if ((probesOf ms 1).getD 0 (0, 0)).1 == 0 then
      countSeqPrefix (probesOf ms 1) 0 else 0) = leadC 1 ms :=
    skip_prefix_eq ms hcpu
  by_cases hg1 : copGate1 P (probesOf ms 0) (probesOf ms 1) = false
  · exfalso
    apply hnoinc
    rw [wtmlib_CalcTSCDeltaRangeCOP, if_pos hg1]
  by_cases hg2 : copGate2 P (probesOf ms 0) (probesOf ms 1) = false
  · exfalso
    apply hnoinc
    rw [wtmlib_CalcTSCDeltaRangeCOP, if_neg hg1, if_pos hg2]
  rcases copLoop_sim ms P hcpu hB hG hP (P - 1) (le_refl _) with
    herr | ⟨s, hfold, hn, hseq, hig, hnr⟩
  · exfalso
    apply hnoinc
    rw [wtmlib_CalcTSCDeltaRangeCOP, if_neg hg1, if_neg hg2, hskip, herr]
  · have hres : wtmlib_CalcTSCDeltaRangeCOP P (probesOf ms 0) (probesOf ms 1) =
        (if s.num_ranges < WTMLIB_TSC_DELTA_RANGE_COUNT_THRESHOLD then .error 3
         else .ok (s.d_min, s.d_max)) := by
      rw [wtmlib_CalcTSCDeltaRangeCOP, if_neg hg1, if_neg hg2, hskip, hfold]
    rw [hres, hnr]
    constructor
    · by_cases hlt : specPairsUpTo (probesOf ms 0) (P - 1) <
          WTMLIB_TSC_DELTA_RANGE_COUNT_THRESHOLD
      · rw [if_pos hlt]
        exact ⟨fun _ => hlt, fun _ => rfl⟩
      · rw [if_neg hlt]
        exact ⟨fun h => Except.noConfusion h, fun h => absurd h hlt⟩
    · intro hge
      rw [if_neg (by omega)]
      exact ⟨_, rfl⟩

/-- The alternating given/base stream with P base probes: every adjacent
base pair encloses one given probe, giving P - 1 enclosing pairs. -/
def altStream (P : Nat) : List (Nat × Nat) :=
  (List.range (2 * P)).map (fun i => (if i % 2 == 0 then 1 else 0, 10 + i))

instance {e a : Type} [DecidableEq e] [DecidableEq a] :
    DecidableEq (Except e a) := fun x y =>
  match x, y with
  | .error u, .error v =>
    if h : u = v then .isTrue (by rw [h])
    else .isFalse (by intro hc; injection hc; contradiction)
  | .error _, .ok _ => .isFalse (by intro hc; exact Except.noConfusion hc)
  | .ok _, .error _ => .isFalse (by intro hc; exact Except.noConfusion hc)
  | .ok u, .ok v =>
    if h : u = v then .isTrue (by rw [h])
    else .isFalse (by intro hc; injection hc; contradiction)

/-- Witness for C5_delta_range_cop_poor_stat: the alternating stream with
10 base probes has exactly 9 enclosing pairs and returns poor statistics;
with 11 base probes it has exactly 10 pairs and succeeds. -/
theorem C5_delta_range_cop_poor_stat_witness :
    ((wtmlib_CalcTSCDeltaRangeCOP 10 (probesOf (altStream 10) 0)
        (probesOf (altStream 10) 1) = .error 3 ↔
      specPairsUpTo (probesOf (altStream 10) 0) (10 - 1) <
        WTMLIB_TSC_DELTA_RANGE_COUNT_THRESHOLD) ∧
     (WTMLIB_TSC_DELTA_RANGE_COUNT_THRESHOLD ≤
        specPairsUpTo (probesOf (altStream 10) 0) (10 - 1) →
      ∃ r, wtmlib_CalcTSCDeltaRangeCOP 10 (probesOf (altStream 10) 0)
        (probesOf (altStream 10) 1) = .ok r)) ∧
    ((wtmlib_CalcTSCDeltaRangeCOP 11 (probesOf (altStream 11) 0)
        (probesOf (altStream 11) 1) = .error 3 ↔
      specPairsUpTo (probesOf (altStream 11) 0) (11 - 1) <
        WTMLIB_TSC_DELTA_RANGE_COUNT_THRESHOLD) ∧
     (WTMLIB_TSC_DELTA_RANGE_COUNT_THRESHOLD ≤
        specPairsUpTo (probesOf (altStream 11) 0) (11 - 1) →
      ∃ r, wtmlib_CalcTSCDeltaRangeCOP 11 (probesOf (altStream 11) 0)
        (probesOf (altStream 11) 1) = .ok r)) :=
  ⟨C5_delta_range_cop_poor_stat (altStream 10) 10 (by decide) (by decide)
      (by decide) (by decide) (by decide),
   C5_delta_range_cop_poor_stat (altStream 11) 11 (by decide) (by decide)
      (by decide) (by decide) (by decide)⟩
